import Mathlib

/-!
Verification of the skill-executing agent runtime (`src/tools/skill_agent.py`,
`src/utils/skill_agent_runtime.py`, `src/utils/tools.py`) against its
natural-language specification.

Python strings are embedded as Lean `String` (or `List Char` where a
character-level scanner is modelled), Python lists as `List`, Python dicts as
association lists, and filesystem or interpreter state as explicit oracle
functions passed to the definitions.  Every definition carries a pointer to the
source lines it embeds.
-/

namespace SkillAgent

/-! ## Basic character constants (used by character-level models) -/

def lbrace : Char := Char.ofNat 123

def rbrace : Char := Char.ofNat 125

def dquote : Char := Char.ofNat 34

def bslash : Char := Char.ofNat 92

def nlChar : Char := Char.ofNat 10

def slashChar : Char := Char.ofNat 47

def squote : Char := Char.ofNat 39

def btick : Char := Char.ofNat 96

/-! ## ProcessExecutor: command allow-listing

Embeds `src/tools/skill_agent.py`: `ALLOWED_COMMANDS` (line 155),
`_AgentRuntime.run_skill_command` (lines 637-678) and
`_AgentRuntime.run_temp_command` (lines 680-707), up to the point where the
child process is spawned.  Filesystem- and interpreter-dependent helpers
(`_skill_contains_python_module`, `_ensure_python_module`) are oracles. -/

def ALLOWED_COMMANDS : List String := ["python", "node", "pandoc", "soffice", "pdftoppm"]

structure ExecOracle where
  sysExecutable : String
  skillContainsModule : String → Bool
  ensureModuleOk : String → Bool → Bool

/-- Outcome of the pre-spawn validation pipeline: a structured error dict
(`errorResult`), a propagated Python exception (`raised`, from `_safe_join`),
or the `subprocess.run` invocation with the final argv (`spawned`). -/
inductive CmdOutcome where
  | errorResult (e : String)
  | raised (e : String)
  | spawned (argv : List String)
  deriving DecidableEq

/-- `_AgentRuntime.run_skill_command`, lines 637-677: skills_root check, empty
check, `_safe_join` (may raise, abstracted by `skillPathOk`), the

`python -m` module probe, the allow-list test, and finally `subprocess.run`.
The error string for a failing `_ensure_python_module` stands for the dict it
returns. -/
def runSkillCommandDecision (env : ExecOracle) (skillsRootOk : Bool) (skillPathOk : Bool)
    (autoInstall : Bool) (command : List String) : CmdOutcome :=
  if !skillsRootOk then .errorResult ("skills_root not found")
  else match command with
  | [] => .errorResult ("command must be a non-empty list")
  | exe :: rest =>
    if !skillPathOk then .raised ("path is outside root")
    else if exe = ("python") then
      match command.findIdx? (fun t => t == ("-m")) with
      | some mi =>
        match command.drop (mi + 1) with
        | [] => .spawned (env.sysExecutable :: rest)
        | moduleName :: _ =>
          if !env.skillContainsModule moduleName then .errorResult ("no_executable_found")
          else if !env.ensureModuleOk moduleName autoInstall then
            .errorResult ("python module not found")
          else .spawned (env.sysExecutable :: rest)
      | none => .spawned (env.sysExecutable :: rest)
    else if ALLOWED_COMMANDS.contains exe then .spawned command
    else .errorResult (("command not allowed: ") ++ exe)

/-- `_AgentRuntime.run_temp_command`, lines 680-707: same pipeline without the
skills_root / skill-path / skill-module-present steps. -/
def runTempCommandDecision (env : ExecOracle) (autoInstall : Bool)
    (command : List String) : CmdOutcome :=
  match command with
  | [] => .errorResult ("command must be a non-empty list")
  | exe :: rest =>
    if exe = ("python") then
      match command.findIdx? (fun t => t == ("-m")) with
      | some mi =>
        match command.drop (mi + 1) with
        | [] => .spawned (env.sysExecutable :: rest)
        | moduleName :: _ =>
          if !env.ensureModuleOk moduleName autoInstall then
            .errorResult ("python module not found")
          else .spawned (env.sysExecutable :: rest)
      | none => .spawned (env.sysExecutable :: rest)
    else if ALLOWED_COMMANDS.contains exe then .spawned command
    else .errorResult (("command not allowed: ") ++ exe)

/-! ## AgentLoop: message compaction

Embeds the `compact` closure of `SkillAgentTool._invoke`,
`src/tools/skill_agent.py` lines 1035-1042.  `messages[0]` is modelled as
`take 1` and the negative slice `messages[-(keep - 1):]` as a `drop`; both
agree with Python on the guarded branch where `len(messages) > keep ≥ 5`. -/

def compactMessages (memoryTurns : Int) (messages : List α) : List α :=
  if memoryTurns ≤ 0 then messages
  else
    let keep : Int := 1 + memoryTurns * 4
    if (messages.length : Int) > keep then
      messages.take 1 ++ messages.drop (messages.length - (keep - 1).toNat)
    else messages

/-! ## SkillCatalog: frontmatter parsing

Embeds `_parse_frontmatter` (`src/utils/tools.py` lines 109-124 =
`src/tools/skill_agent.py` lines 80-95).  Python dicts of strings are
association lists; `data[key] = value` updates in place or appends. -/

/-- The ASCII whitespace stripped by Python `str.strip()` and matched by the
ASCII part of the regex class `\s` (the texts exercised here contain no other
whitespace): space, tab, LF, CR, VT, FF. -/
def isPyWhitespace (c : Char) : Bool :=
  [Char.ofNat 32, Char.ofNat 9, Char.ofNat 10, Char.ofNat 13,
   Char.ofNat 11, Char.ofNat 12].contains c

/-- Remove every leading and trailing character satisfying `p`. -/
def stripEnds (p : Char → Bool) (l : List Char) : List Char :=
  ((l.dropWhile p).reverse.dropWhile p).reverse

/-- Python `str.strip()` on a character list. -/
def pyStripL (l : List Char) : List Char := stripEnds isPyWhitespace l

/-- Python `str.strip()` on a string. -/
def pyStrip (s : String) : String := String.mk (pyStripL s.toList)

/-- Python `str.strip(c)` for a single character `c`. -/
def stripCharL (c : Char) (l : List Char) : List Char := stripEnds (fun d => d = c) l

/-- The value cleanup in `_parse_frontmatter`:
`value.strip().strip(DOUBLEQUOTE).strip(SINGLEQUOTE)`. -/
def trimValueL (l : List Char) : List Char := stripCharL squote (stripCharL dquote (pyStripL l))

/-- `str.split(NEWLINE)`: split a character list at every newline (the result
is always non-empty). -/
def splitNlRaw : List Char → List (List Char)
  | [] => [[]]
  | c :: rest =>
    if c = nlChar then [] :: splitNlRaw rest
    else
      match splitNlRaw rest with
      | l :: ls => (c :: l) :: ls
      | [] => [[c]]

/-- Python `str.splitlines()` restricted to LF-separated text (every input in
this development uses LF only): like `splitNlRaw`, but the final empty piece
of a newline-terminated text is dropped, and the empty text gives `[]`. -/
def pySplitlinesL (l : List Char) : List (List Char) :=
  if l = [] then []
  else if l.getLast? = some nlChar then (splitNlRaw l).dropLast
  else splitNlRaw l

/-- Python `data[key] = value` on a dict kept as an association list: replace
in place when the key exists, append otherwise. -/
def dictSet {α : Type} (l : List (String × α)) (k : String) (v : α) : List (String × α) :=
  match l with
  | [] => [(k, v)]
  | (k0, v0) :: rest => if k0 = k then (k, v) :: rest else (k0, v0) :: dictSet rest k v

/-- Python `dict.get(key)` on an association list. -/
def dictGet {α : Type} (l : List (String × α)) (k : String) : Option α :=
  match l with
  | [] => none
  | (k0, v) :: rest => if k0 = k then some v else dictGet rest k

/-- Python `line.split(COLON, 1)`: the part before the first colon and the
part after it (only queried on lines that do contain a colon). -/
def splitFirstColonL : List Char → List Char × List Char
  | [] => ([], [])
  | c :: rest =>
    if c = ':' then ([], rest)
    else
      let p := splitFirstColonL rest
      (c :: p.1, p.2)

/-- The dashes delimiter line `---` of the frontmatter grammar. -/
def threeDashes : List Char := [('-'), ('-'), ('-')]

/-- The line loop of `_parse_frontmatter` (`for line in lines[1:]`): stop at a
`---` line, skip colon-free lines, otherwise split at the first colon, strip
the key, clean the value, and record the pair when the key is non-empty. -/
def parseFrontmatterLines : List (List Char) → List (String × String) → List (String × String)
  | [], data => data
  | line :: rest, data =>
    if pyStripL line = threeDashes then data
    else if !(line.contains ':') then parseFrontmatterLines rest data
    else
      let kv := splitFirstColonL line
      if pyStripL kv.1 ≠ [] then
        parseFrontmatterLines rest
          (dictSet data (String.mk (pyStripL kv.1)) (String.mk (trimValueL kv.2)))
      else parseFrontmatterLines rest data

/-- `_parse_frontmatter`: empty mapping unless the first line (stripped) is
`---`; otherwise run the line loop on the remaining lines. -/
def parseFrontmatter (content : String) : List (String × String) :=
  match pySplitlinesL content.toList with
  | [] => []
  | first :: rest => if pyStripL first = threeDashes then parseFrontmatterLines rest [] else []

/-! ## SessionStore: resume replies and start-of-turn dispatch

Embeds `_normalize_small_reply` / `_is_allow_reply` / `_is_deny_reply`
(`src/tools/skill_agent.py` lines 297-323) and the start-of-turn resume logic
of `SkillAgentTool._invoke` (lines 942-970) together with the pending-resume
record written at lines 1324-1336. -/

/-- The punctuation class removed by `_normalize_small_reply` (line 302). -/
def replyPunctChars : List Char :=
  [('。'), ('．'), ('.'), ('，'), (','), ('！'), ('!'), ('？'), ('?'), ('；'), (';'),
   ('：'), (':'), ('-'), ('—'), ('_'), ('~'), btick, squote, dquote]

/-- `_normalize_small_reply`: strip, lower-case, then delete whitespace and the
punctuation set (substituting a character class by the empty string is
character filtering). -/
def normalizeSmallReply (text : String) : String :=
  String.mk (((pyStripL text.toList).map Char.toLower).filter
    (fun c => !(isPyWhitespace c) && !(replyPunctChars.contains c)))

/-- Membership of `needle` as a contiguous run inside the character list
(Python `needle in hay`). -/
def listHasSub (needle : List Char) : List Char → Bool
  | [] => needle.isEmpty
  | c :: rest => needle.isPrefixOf (c :: rest) || listHasSub needle rest

/-- Python `needle in hay` on strings. -/
def strHasSub (hay needle : String) : Bool := listHasSub needle.toList hay.toList

def denyTokens : List String :=
  [("不允许"), ("不同意"), ("不可以"), ("不要"), ("拒绝"), ("取消")]

def allowExact : List String :=
  [("允许"), ("同意"), ("可以"), ("好的"), ("好"), ("ok"), ("okay"), ("yes"), ("y"), ("sure")]

/-- `_is_deny_reply` (lines 319-323). -/
def isDenyReply (text : String) : Bool :=
  if normalizeSmallReply text = ("") then false
  else denyTokens.any (fun x => strHasSub (normalizeSmallReply text) x)

/-- `_is_allow_reply` (lines 306-316): denial tokens first, then the exact
affirmative vocabulary, then the two affirmative substrings. -/
def isAllowReply (text : String) : Bool :=
  if normalizeSmallReply text = ("") then false
  else if denyTokens.any (fun x => strHasSub (normalizeSmallReply text) x) then false
  else if allowExact.contains (normalizeSmallReply text) then true
  else strHasSub (normalizeSmallReply text) ("允许") ||
       strHasSub (normalizeSmallReply text) ("同意")

structure ResumeRec where
  pending : Bool
  session_dir : String
  original_query : String
  reason : String
  skill : String
  moduleName : String
  created_at : Int
  deriving DecidableEq

/-- `SkillAgentTool._invoke` lines 1324-1336: the pending-resume record stored
when `run_skill_command` reports `no_executable_found`. -/
def resumeRecordOnNoExec (sessionDir query skill moduleName : String) (now : Int) : ResumeRec :=
  ⟨true, sessionDir, query, ("no_executable_found"), skill, moduleName, now⟩

/-- Start-of-turn outcome: `denyAck` is the early return that clears the
record and emits exactly one acknowledgement text message; `proceed` carries
the session directory, the (possibly substituted) query and the
`is_resuming` flag. -/
inductive TurnPrep where
  | denyAck
  | proceed (sessionDir : String) (query : String) (isResuming : Bool)
  deriving DecidableEq

/-- `SkillAgentTool._invoke` lines 942-970: dispatch on the stored resume
record at the start of a turn.  The second component is the record left in
storage (`none` models `_storage_set_json(storage, resume_key, None)`). -/
def prepareTurn (stored : Option ResumeRec) (query freshDir : String) :
    TurnPrep × Option ResumeRec :=
  let pending := match stored with | some r => r.pending | none => false
  if pending && isDenyReply query then (TurnPrep.denyAck, none)
  else if pending && isAllowReply query then
    match stored with
    | some r =>
      if pyStrip r.session_dir ≠ ("") then
        (TurnPrep.proceed (pyStrip r.session_dir)
          (if pyStrip r.original_query ≠ ("") then pyStrip r.original_query else query) true, none)
      else (TurnPrep.proceed freshDir query false, stored)
    | none => (TurnPrep.proceed freshDir query false, stored)
  else (TurnPrep.proceed freshDir query false, stored)

/-! ## SkillCatalog: metadata caching (`get_skill_metadata`)

Embeds `_AgentRuntime.get_skill_metadata` of the tool
(`src/tools/skill_agent.py` lines 566-595) together with its use of
`write_temp_file` (lines 612-618).  The filesystem is an oracle `skillMd`
giving the (truncated) text of `skills_root/<skill>/SKILL.md` when the skill
folder resolves and that file exists; the write into the session directory is
recorded as a `(relative path, content)` pair and assumed to succeed (on an
`OSError` the source merely blanks `skill_md_path`). -/

structure MetaCacheEntry where
  skill : String
  metadata : List (String × String)
  skill_md_path : String
  deriving DecidableEq

/-- The tool-result dict of `get_skill_metadata`; absent keys are `none`,
`false` or the empty value (the constant `note` string of the cached branch is
not modelled). -/
structure MetaResult where
  error : Option String
  skill : String
  metadata : List (String × String)
  cached : Bool
  skill_md : Option String
  skill_md_path : String
  deriving DecidableEq

/-- Keep-class of the sanitising regex `[^\w一-鿿\-]+` at line 584:
word characters (ASCII letters, digits, underscore — the full Unicode extent
of `\w` is approximated by adding the explicitly listed CJK range, which
covers the skill names exercised here) plus the hyphen. -/
def isSkillWordChar (c : Char) : Bool :=
  c.isAlphanum || c = ('_') || (0x4e00 ≤ c.toNat && c.toNat ≤ 0x9fff) || c = ('-')

/-- `re.sub(CLASS+, UNDERSCORE, s)`: every maximal run of non-keep characters
becomes a single underscore (the flag records whether the previous character
was part of such a run). -/
def collapseNonWord : Bool → List Char → List Char
  | _, [] => []
  | prevRepl, c :: rest =>
    if isSkillWordChar c then c :: collapseNonWord false rest
    else if prevRepl then collapseNonWord true rest
    else ('_') :: collapseNonWord true rest

/-- Lines 584-587: sanitise the skill name into the cache folder name
(strip, collapse the non-word runs, default to `skill` when empty, truncate
to 60 characters). -/
def sanitizeSkillFolder (s : String) : String :=
  String.mk
    ((if collapseNonWord false (pyStripL s.toList) = []
      then [('s'), ('k'), ('i'), ('l'), ('l')]
      else collapseNonWord false (pyStripL s.toList)).take 60)

/-- The cache-miss path of `get_skill_metadata` (lines 578-595): read and
parse `SKILL.md`, cache its text under
`_skill_cache/<sanitized skill name>/SKILL.md` in the session directory, store
the cache entry, and return the full result including `skill_md`. -/
def freshSkillMetadata (skillMd : String → Option String)
    (cache : List (String × MetaCacheEntry)) (skillName : String) :
    MetaResult × List (String × MetaCacheEntry) × List (String × String) :=
  match skillMd skillName with
  | none => (⟨some ("SKILL.md not found"), skillName, [], false, none, ("")⟩, cache, [])
  | some content =>
    (⟨none, skillName, parseFrontmatter content, false, some content,
       ("_skill_cache/") ++ sanitizeSkillFolder skillName ++ ("/SKILL.md")⟩,
     dictSet cache skillName
       ⟨skillName, parseFrontmatter content,
        ("_skill_cache/") ++ sanitizeSkillFolder skillName ++ ("/SKILL.md")⟩,
     [(("_skill_cache/") ++ sanitizeSkillFolder skillName ++ ("/SKILL.md"), content)])

/-- `get_skill_metadata` (lines 566-595): skills_root guard, then the
per-run cache (hit when the stored entry's `skill` field equals the name:
return `cached = True` with the stored metadata and cache path and without
`skill_md`), otherwise the fresh read.  The third component lists the
`write_temp_file` calls performed. -/
def getSkillMetadata (skillMd : String → Option String) (skillsRootOk : Bool)
    (cache : List (String × MetaCacheEntry)) (skillName : String) :
    MetaResult × List (String × MetaCacheEntry) × List (String × String) :=
  if !skillsRootOk then
    (⟨some ("skills_root not found"), (""), [], false, none, ("")⟩, cache, [])
  else
    match dictGet cache skillName with
    | some e =>
      if e.skill = skillName then
        (⟨none, skillName, e.metadata, true, none, e.skill_md_path⟩, cache, [])
      else freshSkillMetadata skillMd cache skillName
    | none => freshSkillMetadata skillMd cache skillName

/-! ## PathGuard: `_safe_join`

Embeds `_safe_join` (`src/utils/tools.py` lines 69-74 =
`src/tools/skill_agent.py` lines 39-44).  POSIX paths are modelled at the
component level: a path string stands for its list of slash-separated
components, a leading empty component marking an absolute path (joining the
components back with the separator recovers the string, so nothing is lost).
`os.path.join(a, b)` is `b` when `b` is absolute and the concatenation of the
component lists otherwise (the separator collapsing it performs on strings is
absorbed by the normalisation inside `os.path.abspath`).  `os.path.abspath(p)`
is `normpath(join(cwd, p))` with `cwd` absolute; its normalisation pass drops
empty and `.` components and lets `..` pop the previous component (a no-op at
the root).  `os.path.commonpath([a, b])` of two absolute paths joins the
longest common prefix of their filtered component lists. -/

def isAbsC (p : List String) : Bool := p.head? = some ("")

/-- `os.path.join(a, b)` at component level. -/
def pjoinC (a b : List String) : List String := if isAbsC b then b else a ++ b

/-- The component pass of `os.path.normpath` on an absolute path. -/
def normAbsC (parts : List String) : List String :=
  parts.foldl
    (fun acc c =>
      if c = ("") then acc
      else if c = (".") then acc
      else if c = ("..") then acc.dropLast
      else acc ++ [c]) []

/-- `os.path.abspath(p)` relative to `cwd`: normalise `join(cwd, p)`; the
leading empty component records absoluteness. -/
def abspathC (cwd p : List String) : List String := ("") :: normAbsC (pjoinC cwd p)

/-- The component filter of `os.path.commonpath`: empty and `.` components do
not participate in the comparison. -/
def cleanComponents (p : List String) : List String :=
  p.filter (fun c => !(c == ("")) && !(c == (".")))

/-- Longest common prefix of two component lists — what `os.path.commonpath`
computes for a pair of paths. -/
def commonPrefixC : List String → List String → List String
  | a :: as, b :: bs => if a = b then a :: commonPrefixC as bs else []
  | _, _ => []

/-- `os.path.commonpath([a, b])` for two absolute paths. -/
def commonpathC (a b : List String) : List String :=
  ("") :: commonPrefixC (cleanComponents a) (cleanComponents b)

/-- `_safe_join(root, relative_path)`: compute `root_abs = abspath(root)` and
`joined = abspath(join(root_abs, relative_path))`, return `joined` when
`commonpath([root_abs, joined]) == root_abs`, otherwise raise `ValueError`
(modelled by the `Except.error` branch). -/
def safeJoin (cwd root rel : List String) : Except String (List String) :=
  if commonpathC (abspathC cwd root) (abspathC cwd (pjoinC (abspathC cwd root) rel)) =
      abspathC cwd root
  then Except.ok (abspathC cwd (pjoinC (abspathC cwd root) rel))
  else Except.error ("path is outside root")

/-! ## OutputPipeline: blob emission at turn termination

Embeds the file-emission part of the `finally` block of
`SkillAgentTool._invoke` (`src/tools/skill_agent.py` lines 1607-1655) and the
`final_file_meta` bookkeeping of the `export_temp_file` dispatch (lines
1367-1380, 1534-1544): `export_temp_file` does not copy and does not select —
it records a filename (and, via the JSON `final` protocol, a MIME) override
for a relative path, while the emitted set is computed from the listing of the
session directory.  File contents are an oracle; the SHA-1 fingerprint is
modelled by the content itself (a collision-free digest).  The overrides
recorded by the dispatch are non-empty strings, so Python's falsy `or`
fallback coincides with the `Option` fallback used here. -/

/-- Python `str.lower()`. -/
def lowerStr (s : String) : String := String.mk (s.toList.map Char.toLower)

/-- Python `str.startswith(p)`. -/
def strStarts (s p : String) : Bool := p.toList.isPrefixOf s.toList

/-- Python `str.endswith(p)`. -/
def strEndsWith (s p : String) : Bool := p.toList.reverse.isPrefixOf s.toList.reverse

/-- Membership in a list of strings with definitional equations (Python
`x in collection`). -/
def memStr (x : String) : List String → Bool
  | [] => false
  | y :: rest => if y = x then true else memStr x rest

/-- Line 1617: `rel.replace(BACKSLASH, SLASH).lstrip(SLASH)`. -/
def relNorm (r : String) : String :=
  String.mk ((r.toList.map (fun c => if c = bslash then slashChar else c)).dropWhile
    (fun c => c = slashChar))

/-- POSIX `os.path.basename`: everything after the last slash. -/
def baseName (r : String) : String :=
  String.mk ((r.toList.reverse.takeWhile (fun c => !(c = slashChar))).reverse)

/-- `_guess_mime_type` (`src/tools/skill_agent.py` lines 766-788). -/
def guessMimeType (filename : String) : String :=
  if strEndsWith (lowerStr filename) (".xlsx") then
    ("application/vnd.openxmlformats-officedocument.spreadsheetml.sheet")
  else if strEndsWith (lowerStr filename) (".xls") then ("application/vnd.ms-excel")
  else if strEndsWith (lowerStr filename) (".csv") then ("text/csv")
  else if strEndsWith (lowerStr filename) (".json") then ("application/json")
  else if strEndsWith (lowerStr filename) (".txt") then ("text/plain")
  else if strEndsWith (lowerStr filename) (".md") then ("text/markdown")
  else if strEndsWith (lowerStr filename) (".png") then ("image/png")
  else if strEndsWith (lowerStr filename) (".jpg") || strEndsWith (lowerStr filename) (".jpeg")
    then ("image/jpeg")
  else if strEndsWith (lowerStr filename) (".pdf") then ("application/pdf")
  else if strEndsWith (lowerStr filename) (".zip") then ("application/zip")
  else ("application/octet-stream")

/-- A `final_file_meta` record: the optional MIME and filename overrides for
one session-relative path. -/
structure ExportMeta where
  mime : Option String
  filename : Option String
  deriving DecidableEq

/-- One row of `files_to_send`: relative path, MIME type, output filename. -/
structure SendEntry where
  rel : String
  mime : String
  outName : String
  deriving DecidableEq

/-- Lines 1607-1624: walk the session-directory file listing, skip paths whose
normalised form starts with `_skill_cache/`, and attach MIME/output-name
(override or inferred).  `uploads/` receives no special treatment. -/
def filesToSend (meta : List (String × ExportMeta)) (entries : List String) : List SendEntry :=
  entries.filterMap (fun rel =>
    if strStarts (relNorm rel) ("_skill_cache/") then none
    else
      some ⟨rel,
        (match dictGet meta rel with
         | some m => m.mime.getD (guessMimeType (baseName rel))
         | none => guessMimeType (baseName rel)),
        (match dictGet meta rel with
         | some m => m.filename.getD (baseName rel)
         | none => baseName rel)⟩)

/-- An emitted `create_blob_message`: source path, delivered filename, MIME,
and blob bytes. -/
structure EmittedBlob where
  rel : String
  outName : String
  mime : String
  content : String
  deriving DecidableEq

/-- Lines 1636-1655: emit each row once per relative path and once per
`name|mime|digest` fingerprint. -/
def emitBlobs (content : String → String) :
    List SendEntry → List String → List String → List EmittedBlob
  | [], _, _ => []
  | e :: rest, yielded, fps =>
    if memStr e.rel yielded then emitBlobs content rest yielded fps
    else
      if memStr (e.outName ++ ("|") ++ e.mime ++ ("|") ++ content e.rel) fps then
        emitBlobs content rest (e.rel :: yielded) fps
      else
        ⟨e.rel, e.outName, e.mime, content e.rel⟩ ::
          emitBlobs content rest (e.rel :: yielded)
            ((e.outName ++ ("|") ++ e.mime ++ ("|") ++ content e.rel) :: fps)

/-- The blobs emitted at turn termination, given the export overrides, the
content oracle, and the file listing of the session directory. -/
def emittedBlobs (meta : List (String × ExportMeta)) (content : String → String)
    (entries : List String) : List EmittedBlob :=
  emitBlobs content (filesToSend meta entries) [] []

/-! ## PathGuard: subprocess argument rewriting

The refactored runtime applies rewrites to the resolved command before
`subprocess.run`: `src/utils/skill_agent_runtime.py` lines 180-182
(`run_skill_command`: uploads paths, existing session files, out-flag values,
in that order).  Their implementations live in `utils/skill_agent_paths.py`,
which is not among the provided sources, so the three functions are modelled
from the spec (§4.1 `rewrite_args`); the composition and its order are taken
from the source.  `fexists rel` is the filesystem oracle
`os.path.isfile(os.path.join(session_dir, rel))`. -/

/-- Modelled from the spec: `_rewrite_uploads_paths_to_session_dir`
(`utils/skill_agent_paths.py` is absent from the sources) — a token that is a
relative path beginning with `uploads/` becomes the absolute path under
`session_dir`. -/
def rewriteUploadsArgs (sessionDir : String) (argv : List String) : List String :=
  argv.map (fun t => if strStarts t ("uploads/") then sessionDir ++ ("/") ++ t else t)

/-- Modelled from the spec: `_rewrite_existing_session_files_to_abs`
(`utils/skill_agent_paths.py` is absent from the sources) — a bare filename
(no slash) referring to an existing file in `session_dir` becomes the absolute
path under `session_dir`. -/
def rewriteExistingArgs (fexists : String → Bool) (sessionDir : String)
    (argv : List String) : List String :=
  argv.map (fun t =>
    if !(t.toList.contains slashChar) && fexists t then sessionDir ++ ("/") ++ t else t)

/-- The conventional output-flag vocabulary named by the spec. -/
def outFlags : List String := [("--out"), ("-o"), ("--output")]

/-- Modelled from the spec: `_rewrite_out_arg_to_session_dir`
(`utils/skill_agent_paths.py` is absent from the sources) — the token
following a `--out`/`-o`/`--output` flag, when relative, becomes the absolute
path under `session_dir`. -/
def rewriteOutArgs (sessionDir : String) : List String → List String
  | [] => []
  | [t] => [t]
  | f :: v :: rest =>
    if memStr f outFlags && !(strStarts v ("/")) then
      f :: (sessionDir ++ ("/") ++ v) :: rewriteOutArgs sessionDir rest
    else f :: rewriteOutArgs sessionDir (v :: rest)

/-- The rewrite pipeline of `run_skill_command`
(`src/utils/skill_agent_runtime.py` lines 180-182), in source order. -/
def rewriteCommandArgs (fexists : String → Bool) (sessionDir : String)
    (argv : List String) : List String :=
  rewriteOutArgs sessionDir
    (rewriteExistingArgs fexists sessionDir (rewriteUploadsArgs sessionDir argv))

/-! ## AgentLoop: the skill-usage ledger gate

`src/utils/skill_agent_runtime.py` carries the per-run skill-usage ledger:
`_skill_metadata_cache` (written on a successful `get_skill_metadata`,
line 74; queried by `has_skill_metadata`, lines 40-42, which also checks the
stored entry's `skill` field) and `_skill_files_listed` (written with the raw
name by `list_skill_files`, line 81; queried with the stripped name by
`has_listed_skill_files`, lines 84-85).  The orchestrator that consults these
predicates before dispatching is not among the provided sources (only the
ledger declarations are; the monolithic tool in `src/tools/skill_agent.py`
dispatches without them), so the gate itself is modelled from the spec
(§4.5 Preconditions; §7 error names). -/

structure Ledger where
  metadataCache : List (String × String)
  filesListed : List String
  deriving DecidableEq

/-- `has_skill_metadata` (lines 40-42): a cached entry exists and its `skill`
field equals the queried name (the map stores the entry's `skill` field). -/
def hasSkillMetadata (st : Ledger) (s : String) : Bool :=
  match dictGet st.metadataCache s with
  | some v => v = s
  | none => false

/-- `has_listed_skill_files` (lines 84-85): membership of the stripped name in
the listed set. -/
def hasListedSkillFiles (st : Ledger) (s : String) : Bool :=
  memStr (pyStrip s) st.filesListed

inductive SkillCall where
  | getMeta (s : String)
  | listFiles (s : String)
  | readFile (s : String) (rel : String)
  | runCmd (s : String) (cmd : List String)
  deriving DecidableEq

/-- `dispatched ok` means the runtime method ran (`ok` is its own success,
e.g. `SKILL.md` found); `blocked e` means the gate refused the call and
returned the structured error `e` instead. -/
inductive GateOutcome where
  | dispatched (ok : Bool)
  | blocked (err : String)
  deriving DecidableEq

/-- Modelled from the spec: the AgentLoop precondition gate (§4.5) over the
source ledger.  `mdOk s` is the oracle for a successful `get_skill_metadata`
(skills_root set, skill folder resolving, `SKILL.md` present); on success the
runtime stores the cache entry (line 74).  A dispatched `list_skill_files`
records the raw name (line 81).  A call violating a precondition is not
dispatched and returns the structured error naming the missing prerequisite
(§7: `skill_md_required`, `skill_files_listing_required`). -/
def gateStep (mdOk : String → Bool) (st : Ledger) : SkillCall → GateOutcome × Ledger
  | .getMeta s =>
    if mdOk s then
      (GateOutcome.dispatched true, ⟨dictSet st.metadataCache s s, st.filesListed⟩)
    else (GateOutcome.dispatched false, st)
  | .listFiles s =>
    if hasSkillMetadata st s then
      (GateOutcome.dispatched true, ⟨st.metadataCache, s :: st.filesListed⟩)
    else (GateOutcome.blocked ("skill_md_required"), st)
  | .readFile s _ =>
    if hasSkillMetadata st s then (GateOutcome.dispatched true, st)
    else (GateOutcome.blocked ("skill_md_required"), st)
  | .runCmd s _ =>
    if !(hasSkillMetadata st s) then (GateOutcome.blocked ("skill_md_required"), st)
    else if !(hasListedSkillFiles st s) then
      (GateOutcome.blocked ("skill_files_listing_required"), st)
    else (GateOutcome.dispatched true, st)

/-- The event trace of a turn: each tool call with its gate outcome, the
ledger threading through. -/
def runGate (mdOk : String → Bool) : Ledger → List SkillCall → List (SkillCall × GateOutcome)
  | _, [] => []
  | st, c :: rest =>
    (c, (gateStep mdOk st c).1) :: runGate mdOk (gateStep mdOk st c).2 rest

/-! ## ProtocolParser: first balanced JSON object

Embeds `_extract_first_json_object` (`src/utils/tools.py` lines 126-162 =
`src/tools/skill_agent.py` lines 98-134) on the character list of the text. -/

/-- Python `NEWLINE.join(lines)`. -/
def joinNl : List (List Char) → List Char
  | [] => []
  | [l] => l
  | l :: ls => l ++ nlChar :: joinNl ls

/-- The three-backtick fence marker. -/
def fenceMarks : List Char := [btick, btick, btick]

/-- Lines 101-105: when the stripped text starts with a fence and splits into
at least three lines, drop the first and last lines and strip again; otherwise
leave the text alone. -/
def stripFenceWrapper (s : List Char) : List Char :=
  if fenceMarks.isPrefixOf s then
    if 3 ≤ (pySplitlinesL s).length then
      if fenceMarks.isPrefixOf ((pySplitlinesL s).headD []) then
        pyStripL (joinNl (((pySplitlinesL s).drop 1).dropLast))
      else s
    else s
  else s

/-- The scanner loop of lines 109-133: a depth counter with string-quote and
escape state.  Returns the offset (Python's `i` minus the scan start) of the
brace at which `depth` reaches zero, or `none` when the text ends first. -/
def scanToClose : List Char → Int → Bool → Bool → Option Nat
  | [], _, _, _ => none
  | c :: rest, depth, inStr, esc =>
    if inStr then
      if esc then (scanToClose rest depth inStr false).map (· + 1)
      else if c = bslash then (scanToClose rest depth inStr true).map (· + 1)
      else if c = dquote then (scanToClose rest depth false esc).map (· + 1)
      else (scanToClose rest depth inStr esc).map (· + 1)
    else if c = dquote then (scanToClose rest depth true esc).map (· + 1)
    else if c = lbrace then (scanToClose rest (depth + 1) inStr esc).map (· + 1)
    else if c = rbrace then
      if depth - 1 = 0 then some 0
      else (scanToClose rest (depth - 1) inStr esc).map (· + 1)
    else (scanToClose rest depth inStr esc).map (· + 1)

/-- `s.find(LBRACE)`: index of the first opening brace. -/
def findLbrace : List Char → Option Nat
  | [] => none
  | c :: rest => if c = lbrace then some 0 else (findLbrace rest).map (· + 1)

/-- Lines 106-134: find the first opening brace, scan from it, and return the
exact balanced span `s[start : i + 1]`. -/
def extractCore (s : List Char) : Option (List Char) :=
  match findLbrace s with
  | none => none
  | some start =>
    match scanToClose (s.drop start) 0 false false with
    | some j => some ((s.drop start).take (j + 1))
    | none => none

/-- `_extract_first_json_object`: `None` on the empty text, else strip, remove
a leading fenced-code wrapper, and scan. -/
def extractFirstJsonObject (text : List Char) : Option (List Char) :=
  if text = [] then none
  else extractCore (stripFenceWrapper (pyStripL text))

/-- The claim's "one balanced JSON object", in the scanner's own terms: the
text begins with an opening brace, ends with a closing brace, and the
quote/escape-tracking scan closes exactly at the last character. -/
def balancedObject (obj : List Char) : Prop :=
  obj.head? = some lbrace ∧ obj.getLast? = some rbrace ∧
  scanToClose obj 0 false false = some (obj.length - 1)

/-! ## Theorems -/

/-- The normalisation pass never emits an empty or `.` component. -/
theorem normAbsC_clean (parts : List String) :
    ∀ c ∈ normAbsC parts, c ≠ ("") ∧ c ≠ (".") := by
  have aux : ∀ (ps acc : List String), (∀ c ∈ acc, c ≠ ("") ∧ c ≠ (".")) →
      ∀ c ∈ ps.foldl
        (fun acc c =>
          if c = ("") then acc
          else if c = (".") then acc
          else if c = ("..") then acc.dropLast
          else acc ++ [c]) acc, c ≠ ("") ∧ c ≠ (".") := by
    intro ps
    induction ps with
    | nil => intro acc hacc; simpa using hacc
    | cons p ps ih =>
      intro acc hacc
      simp only [List.foldl_cons]
      by_cases h1 : p = ("")
      · simpa [h1] using ih acc hacc
      · by_cases h2 : p = (".")
        · simpa [h1, h2] using ih acc hacc
        · by_cases h3 : p = ("..")
          · simp only [h1, h2, h3, if_neg, if_pos, if_true]
            exact ih acc.dropLast
              (fun c hc => hacc c ((List.dropLast_sublist acc).subset hc))
          · simp only [if_neg h1, if_neg h2, if_neg h3]
            refine ih (acc ++ [p]) ?_
            intro c hc
            rcases List.mem_append.1 hc with h | h
            · exact hacc c h
            · rcases List.mem_singleton.1 h with rfl
              exact ⟨h1, h2⟩
  exact aux parts [] (by simp)

/-- Filtering is the identity on clean component lists. -/
theorem cleanComponents_of_clean (l : List String)
    (h : ∀ c ∈ l, c ≠ ("") ∧ c ≠ (".")) : cleanComponents l = l := by
  unfold cleanComponents
  refine List.filter_eq_self.mpr ?_
  intro c hc
  simp [(h c hc).1, (h c hc).2]

/-- If the common prefix of `a` and `b` is all of `a`, then `a` is a prefix
of `b`. -/
theorem commonPrefixC_eq_left {a b : List String} (h : commonPrefixC a b = a) :
    a <+: b := by
  induction a generalizing b with
  | nil => exact List.nil_prefix
  | cons x xs ih =>
    cases b with
    | nil => simp [commonPrefixC] at h
    | cons y ys =>
      by_cases hxy : x = y
      · subst hxy
        have h' : commonPrefixC xs ys = xs := by simpa [commonPrefixC] using h
        rcases ih h' with ⟨t, ht⟩
        exact ⟨t, by simp [List.cons_append, ht]⟩
      · simp [commonPrefixC, hxy] at h

/-- Claim C4 (confirmed): `_safe_join(root, relative_path)` either returns an
absolute path whose components extend those of the absolute form of `root`
(root is a path prefix of the result), or fails with the path-outside-root
error; it never returns a path outside `root`. -/
theorem c4_safe_join_containment :
    (∀ (cwd root rel p : List String), safeJoin cwd root rel = Except.ok p →
      isAbsC p = true ∧
      cleanComponents (abspathC cwd root) <+: cleanComponents p) ∧
    (∀ cwd root rel : List String, (∃ p, safeJoin cwd root rel = Except.ok p) ∨
      safeJoin cwd root rel = Except.error ("path is outside root")) := by
  constructor
  · intro cwd root rel p hok
    unfold safeJoin at hok
    by_cases hc : commonpathC (abspathC cwd root)
        (abspathC cwd (pjoinC (abspathC cwd root) rel)) = abspathC cwd root
    · rw [if_pos hc] at hok
      injection hok with hp
      subst hp
      constructor
      · rfl
      · have hfilter : cleanComponents (("") :: normAbsC (pjoinC cwd root)) =
            cleanComponents (normAbsC (pjoinC cwd root)) := by
          simp [cleanComponents]
        have hroot : cleanComponents (abspathC cwd root) = normAbsC (pjoinC cwd root) :=
          hfilter.trans (cleanComponents_of_clean _ (normAbsC_clean _))
        have hcp : commonPrefixC (cleanComponents (abspathC cwd root))
            (cleanComponents (abspathC cwd (pjoinC (abspathC cwd root) rel))) =
            normAbsC (pjoinC cwd root) := by
          have := congrArg List.tail hc
          simpa [commonpathC, abspathC] using this
        rw [hroot]
        exact commonPrefixC_eq_left (by rw [← hroot] at hcp ⊢; exact hcp)
    · rw [if_neg hc] at hok
      cases hok
  · intro cwd root rel
    by_cases hc : commonpathC (abspathC cwd root)
        (abspathC cwd (pjoinC (abspathC cwd root) rel)) = abspathC cwd root
    · exact Or.inl ⟨_, by unfold safeJoin; rw [if_pos hc]⟩
    · exact Or.inr (by unfold safeJoin; rw [if_neg hc])

/-- Witness for C4: a concrete in-root join succeeds and the containment holds
there; a traversal via `..` is rejected. -/
theorem c4_safe_join_containment_witness :
    (isAbsC (abspathC [(""), ("home")] (pjoinC (abspathC [(""), ("home")] [(""), ("r")]) [("f")])) = true ∧
      cleanComponents (abspathC [(""), ("home")] [(""), ("r")]) <+:
        cleanComponents (abspathC [(""), ("home")] (pjoinC (abspathC [(""), ("home")] [(""), ("r")]) [("f")]))) ∧
    safeJoin [(""), ("home")] [(""), ("r")] [(".."), ("etc")] =
      Except.error ("path is outside root") := by
  constructor
  · exact c4_safe_join_containment.1 [(""), ("home")] [(""), ("r")] [("f")] _ (by rfl)
  · rfl

/-- Claim C3 (confirmed): for every argv given to `run_skill_command` or
`run_temp_command`, a child process is spawned only when `argv[0]` is
`python` or a member of the allow-list; for any other first token the call
returns a `command not allowed` error naming the token, and no process is
spawned. -/
theorem c3_allow_list_closure :
    (∀ (env : ExecOracle) (rootOk pathOk auto : Bool) (command argv : List String),
      runSkillCommandDecision env rootOk pathOk auto command = CmdOutcome.spawned argv →
      ∃ exe rest, command = exe :: rest ∧ ALLOWED_COMMANDS.contains exe = true) ∧
    (∀ (env : ExecOracle) (auto : Bool) (command argv : List String),
      runTempCommandDecision env auto command = CmdOutcome.spawned argv →
      ∃ exe rest, command = exe :: rest ∧ ALLOWED_COMMANDS.contains exe = true) ∧
    (∀ (env : ExecOracle) (auto : Bool) (exe : String) (rest : List String),
      exe ≠ ("python") → ALLOWED_COMMANDS.contains exe = false →
      runSkillCommandDecision env true true auto (exe :: rest) =
        CmdOutcome.errorResult (("command not allowed: ") ++ exe)) ∧
    (∀ (env : ExecOracle) (auto : Bool) (exe : String) (rest : List String),
      exe ≠ ("python") → ALLOWED_COMMANDS.contains exe = false →
      runTempCommandDecision env auto (exe :: rest) =
        CmdOutcome.errorResult (("command not allowed: ") ++ exe)) := by
  refine ⟨?_, ?_, ?_, ?_⟩
  · intro env rootOk pathOk auto command argv h
    cases command with
    | nil => cases rootOk <;> simp [runSkillCommandDecision] at h
    | cons exe rest =>
      refine ⟨exe, rest, rfl, ?_⟩
      by_cases hexe : exe = ("python")
      · subst hexe; decide
      · by_cases hm : exe ∈ ALLOWED_COMMANDS
        · simpa using hm
        · exfalso
          cases rootOk <;> cases pathOk <;>
            simp [runSkillCommandDecision, hexe, hm] at h
  · intro env auto command argv h
    cases command with
    | nil => simp [runTempCommandDecision] at h
    | cons exe rest =>
      refine ⟨exe, rest, rfl, ?_⟩
      by_cases hexe : exe = ("python")
      · subst hexe; decide
      · by_cases hm : exe ∈ ALLOWED_COMMANDS
        · simpa using hm
        · exfalso
          simp [runTempCommandDecision, hexe, hm] at h
  · intro env auto exe rest hexe hc
    have hm : exe ∉ ALLOWED_COMMANDS := by simpa using hc
    simp [runSkillCommandDecision, hexe, hm]
  · intro env auto exe rest hexe hc
    have hm : exe ∉ ALLOWED_COMMANDS := by simpa using hc
    simp [runTempCommandDecision, hexe, hm]

/-- Witness for C3 at concrete inputs: `bash` is rejected with the structured
error and `["node", "x.js"]` may spawn. -/
theorem c3_allow_list_closure_witness :
    runSkillCommandDecision ⟨("/usr/bin/python3"), fun _ => true, fun _ _ => true⟩
        true true false [("bash"), ("-c"), ("id")] =
      CmdOutcome.errorResult (("command not allowed: ") ++ ("bash")) ∧
    ∃ exe rest, ([("node"), ("x.js")] : List String) = exe :: rest ∧
      ALLOWED_COMMANDS.contains exe = true := by
  refine ⟨c3_allow_list_closure.2.2.1 _ false ("bash") [("-c"), ("id")] (by decide) (by decide), ?_⟩
  exact c3_allow_list_closure.2.1 ⟨("/usr/bin/python3"), fun _ => true, fun _ _ => true⟩
    false [("node"), ("x.js")] [("node"), ("x.js")] (by decide)

/-- Claim C9 counterexample: with `memory_turns = 1` the bound `keep` is
`1 + 4·1 = 5`; on a six-entry list the code keeps the system message plus the
last four entries and drops entry `1`, whereas the claim predicts the list is
left unchanged (system message plus the last `1 + 4·memory_turns = 5`
entries). -/
theorem c9_compaction_counterexample :
    compactMessages 1 [0, 1, 2, 3, 4, 5] = [0, 2, 3, 4, 5] ∧
    compactMessages 1 [0, 1, 2, 3, 4, 5] ≠ [0, 1, 2, 3, 4, 5] := by
  constructor <;> decide

/-- Claim C9 (corrected): at the start of every step, when `memory_turns > 0`,
compaction keeps the system message plus the last `4·memory_turns` entries
(a total of `1 + 4·memory_turns`) when the list is longer than
`1 + 4·memory_turns`, and leaves the list unchanged otherwise. -/
theorem c9_compaction_amended (m : Int) (l : List α) (hm : 0 < m) :
    ((l.length : Int) ≤ 1 + m * 4 → compactMessages m l = l) ∧
    ((l.length : Int) > 1 + m * 4 →
      compactMessages m l = l.take 1 ++ l.drop (l.length - (m * 4).toNat) ∧
      (compactMessages m l).length = 1 + (m * 4).toNat) := by
  constructor
  · intro hle
    simp only [compactMessages, if_neg (by omega : ¬ m ≤ 0)]
    simp only [if_neg (by omega : ¬ (l.length : Int) > 1 + m * 4)]
  · intro hgt
    have hm4 : (1 + m * 4 - 1).toNat = (m * 4).toNat := by omega
    have hlen : (m * 4).toNat < l.length := by omega
    constructor
    · simp only [compactMessages, if_neg (by omega : ¬ m ≤ 0)]
      simp only [if_pos hgt, hm4]
    · simp only [compactMessages, if_neg (by omega : ¬ m ≤ 0)]
      simp only [if_pos hgt, hm4]
      simp only [List.length_append, List.length_take, List.length_drop]
      omega

/-- Witness for C9 at concrete inputs. -/
theorem c9_compaction_amended_witness :
    compactMessages 2 [0, 1, 2] = [0, 1, 2] ∧
    compactMessages 1 [0, 1, 2, 3, 4, 5] = [0] ++ [2, 3, 4, 5] := by
  constructor
  · exact (c9_compaction_amended 2 [0, 1, 2] (by decide)).1 (by decide)
  · have h := ((c9_compaction_amended 1 [0, 1, 2, 3, 4, 5] (by decide)).2 (by decide)).1
    exact h.trans (by decide)

/-- Claim C6 counterexample: on content whose opening `---` line has no
closing `---` line the claim predicts the empty mapping, but
`_parse_frontmatter` falls off the end of its loop and returns every
`key: value` pair collected from the remaining lines. -/
theorem c6_frontmatter_counterexample :
    parseFrontmatter ("---\na: b") = [(("a"), ("b"))] ∧
    parseFrontmatter ("---\na: b") ≠ ([] : List (String × String)) := by
  constructor <;> decide

/-- Claim C6 (corrected): the parser maps the example content to exactly the
one-pair mapping (the body is untouched — the function is pure and returns
only the mapping); surrounding whitespace and single/double quotes are trimmed
from values; but for content whose opening `---` line has no closing `---`
line the parser returns the pairs collected from all remaining lines rather
than the empty mapping: appending a closing `---` line (and anything after it)
never changes the result. -/
theorem c6_frontmatter_amended :
    parseFrontmatter ("---\nkey: \"v\"\n---\nbody") = [(("key"), ("v"))] ∧
    String.mk (trimValueL [squote, ('w'), squote]) = ("w") ∧
    String.mk (trimValueL [Char.ofNat 32, dquote, ('v'), dquote, Char.ofNat 32]) = ("v") ∧
    parseFrontmatter ("---\na: b") = [(("a"), ("b"))] ∧
    (∀ (lines extra : List (List Char)) (acc : List (String × String)),
      (∀ l ∈ lines, pyStripL l ≠ threeDashes) →
      parseFrontmatterLines (lines ++ threeDashes :: extra) acc =
        parseFrontmatterLines lines acc) := by
  refine ⟨by decide, by decide, by decide, by decide, ?_⟩
  intro lines extra
  induction lines with
  | nil =>
    intro acc _
    have h3 : pyStripL threeDashes = threeDashes := by decide
    simp [parseFrontmatterLines, h3]
  | cons line rest ih =>
    intro acc h
    have hline : pyStripL line ≠ threeDashes := h line (List.mem_cons_self _ _)
    have hrest : ∀ l ∈ rest, pyStripL l ≠ threeDashes :=
      fun l hl => h l (List.mem_cons_of_mem _ hl)
    by_cases hc : line.contains ':'
    · by_cases hk : pyStripL (splitFirstColonL line).1 = []
      · simp [parseFrontmatterLines, hline, hc, hk, ih _ hrest]
      · simp [parseFrontmatterLines, hline, hc, hk, ih _ hrest]
    · simp [parseFrontmatterLines, hline, hc, ih _ hrest]

/-- Witness for C6's quantified conjunct at a concrete input. -/
theorem c6_frontmatter_amended_witness :
    parseFrontmatterLines ([[('a'), (':'), (' '), ('b')]] ++ threeDashes :: [[('z')]]) [] =
      parseFrontmatterLines [[('a'), (':'), (' '), ('b')]] [] := by
  exact c6_frontmatter_amended.2.2.2.2 [[('a'), (':'), (' '), ('b')]] [[('z')]] []
    (by decide)

/-- Denial tokens take precedence: an affirmative classification implies there
was no denial token (`_is_allow_reply` checks the denial set first). -/
theorem allowReply_not_denyReply (q : String) (h : isAllowReply q = true) :
    isDenyReply q = false := by
  unfold isAllowReply at h
  unfold isDenyReply
  by_cases ht : normalizeSmallReply q = ("")
  · simp [ht] at h
  · by_cases hd : denyTokens.any (fun x => strHasSub (normalizeSmallReply q) x) = true
    · simp [ht, hd] at h
    · simp [ht, hd]

/-- Claim C8 (confirmed): after a `no_executable_found` consent question a
pending record with exactly the fields
`pending/session_dir/original_query/reason/skill/module/created_at` is stored;
on the next turn a deny reply (denial tokens taking precedence over
affirmative ones) clears the record and terminates with only an
acknowledgement, while an allow reply reuses the recorded `session_dir`,
substitutes the recorded `original_query`, and clears the record. -/
theorem c8_resume_flow :
    (∀ (sd q sk m : String) (t : Int), resumeRecordOnNoExec sd q sk m t =
      ⟨true, sd, q, ("no_executable_found"), sk, m, t⟩) ∧
    (∀ q : String, isDenyReply q = true → isAllowReply q = false) ∧
    (∀ (r : ResumeRec) (q f : String), r.pending = true → isDenyReply q = true →
      prepareTurn (some r) q f = (TurnPrep.denyAck, none)) ∧
    (∀ (r : ResumeRec) (q f : String), r.pending = true → isAllowReply q = true →
      pyStrip r.session_dir ≠ ("") → pyStrip r.original_query ≠ ("") →
      prepareTurn (some r) q f =
        (TurnPrep.proceed (pyStrip r.session_dir) (pyStrip r.original_query) true, none)) := by
  refine ⟨fun _ _ _ _ _ => rfl, ?_, ?_, ?_⟩
  · intro q h
    by_cases ha : isAllowReply q = true
    · have hd := allowReply_not_denyReply q ha
      rw [h] at hd
      exact absurd hd (by decide)
    · simpa using ha
  · intro r q f hp hd
    simp [prepareTurn, hp, hd]
  · intro r q f hp ha hsd hoq
    have hd : isDenyReply q = false := allowReply_not_denyReply q ha
    simp [prepareTurn, hp, hd, ha, hsd, hoq]

/-- Witness for C8 on a concrete pending record, with the replies `不允许`
(deny) and `允许` (allow). -/
theorem c8_resume_flow_witness :
    prepareTurn (some (resumeRecordOnNoExec ("/tmp/skill-sess") ("make the file") ("A") ("mymod") 5))
        ("不允许") ("/tmp/fresh") = (TurnPrep.denyAck, none) ∧
    prepareTurn (some (resumeRecordOnNoExec ("/tmp/skill-sess") ("make the file") ("A") ("mymod") 5))
        ("允许") ("/tmp/fresh") =
      (TurnPrep.proceed ("/tmp/skill-sess") ("make the file") true, none) := by
  constructor
  · exact c8_resume_flow.2.2.1 _ _ _ (by decide) (by decide)
  · have h := c8_resume_flow.2.2.2
      (resumeRecordOnNoExec ("/tmp/skill-sess") ("make the file") ("A") ("mymod") 5)
      ("允许") ("/tmp/fresh") (by decide) (by decide) (by decide) (by decide)
    exact h.trans (by decide)

/-- Updating one key of an association-list dict leaves every other key's
lookup unchanged. -/
theorem dictGet_dictSet_ne {α : Type} (l : List (String × α)) (k k' : String) (v : α)
    (h : k ≠ k') : dictGet (dictSet l k v) k' = dictGet l k' := by
  induction l with
  | nil => simp [dictSet, dictGet, h]
  | cons p rest ih =>
    obtain ⟨k0, v0⟩ := p
    by_cases hk : k0 = k
    · subst hk
      simp [dictSet, dictGet, h]
    · simp [dictSet, dictGet, hk, ih]

/-- Claim C10 (confirmed): the first successful `get_skill_metadata(S)` of a
run returns the parsed metadata together with the full `skill_md` text,
writes that text to `_skill_cache/<sanitized skill name>/SKILL.md` under the
session directory, and stores the cache entry; every later call for `S` hits
the cache and returns `cached = true` with the same metadata mapping and
cached-file path but without the `skill_md` text, leaving the cache unchanged
and writing nothing; calls for other skills never disturb the entry. -/
theorem c10_metadata_cache :
    (∀ (skillMd : String → Option String) (cache : List (String × MetaCacheEntry))
        (name content : String),
      dictGet cache name = none → skillMd name = some content →
      getSkillMetadata skillMd true cache name =
        (⟨none, name, parseFrontmatter content, false, some content,
           ("_skill_cache/") ++ sanitizeSkillFolder name ++ ("/SKILL.md")⟩,
         dictSet cache name
           ⟨name, parseFrontmatter content,
            ("_skill_cache/") ++ sanitizeSkillFolder name ++ ("/SKILL.md")⟩,
         [(("_skill_cache/") ++ sanitizeSkillFolder name ++ ("/SKILL.md"), content)])) ∧
    (∀ (skillMd : String → Option String) (cache : List (String × MetaCacheEntry))
        (name : String) (e : MetaCacheEntry),
      dictGet cache name = some e → e.skill = name →
      getSkillMetadata skillMd true cache name =
        (⟨none, name, e.metadata, true, none, e.skill_md_path⟩, cache, [])) ∧
    (∀ (skillMd : String → Option String) (rootOk : Bool)
        (cache : List (String × MetaCacheEntry)) (name other : String),
      other ≠ name →
      dictGet (getSkillMetadata skillMd rootOk cache other).2.1 name = dictGet cache name) := by
  refine ⟨?_, ?_, ?_⟩
  · intro skillMd cache name content h1 h2
    simp [getSkillMetadata, freshSkillMetadata, h1, h2]
  · intro skillMd cache name e h1 h2
    simp [getSkillMetadata, h1, h2]
  · intro skillMd rootOk cache name other hne
    cases rootOk with
    | false => simp [getSkillMetadata]
    | true =>
      simp only [getSkillMetadata, Bool.not_true]
      cases hg : dictGet cache other with
      | some e =>
        by_cases he : e.skill = other
        · simp [he]
        · cases hm : skillMd other with
          | none => simp [he, freshSkillMetadata, hm]
          | some content => simp [he, freshSkillMetadata, hm, dictGet_dictSet_ne _ _ _ _ hne]
      | none =>
        cases hm : skillMd other with
        | none => simp [freshSkillMetadata, hm]
        | some content => simp [freshSkillMetadata, hm, dictGet_dictSet_ne _ _ _ _ hne]

/-- Witness for C10: a concrete run on skill `A` — a fresh call that writes the
cache file, followed by a cache hit returning the same metadata without the
text. -/
theorem c10_metadata_cache_witness :
    getSkillMetadata (fun n => if n = ("A") then some ("---\nname: A\n---\nbody") else none)
        true [] ("A") =
      (⟨none, ("A"), parseFrontmatter ("---\nname: A\n---\nbody"), false,
         some ("---\nname: A\n---\nbody"),
         ("_skill_cache/") ++ sanitizeSkillFolder ("A") ++ ("/SKILL.md")⟩,
       dictSet [] ("A")
         ⟨("A"), parseFrontmatter ("---\nname: A\n---\nbody"),
          ("_skill_cache/") ++ sanitizeSkillFolder ("A") ++ ("/SKILL.md")⟩,
       [(("_skill_cache/") ++ sanitizeSkillFolder ("A") ++ ("/SKILL.md"),
         ("---\nname: A\n---\nbody"))]) ∧
    getSkillMetadata (fun n => if n = ("A") then some ("---\nname: A\n---\nbody") else none)
        true [(("A"), ⟨("A"), [(("name"), ("A"))], ("_skill_cache/A/SKILL.md")⟩)] ("A") =
      (⟨none, ("A"), [(("name"), ("A"))], true, none, ("_skill_cache/A/SKILL.md")⟩,
       [(("A"), ⟨("A"), [(("name"), ("A"))], ("_skill_cache/A/SKILL.md")⟩)], []) := by
  constructor
  · exact c10_metadata_cache.1 _ [] ("A") ("---\nname: A\n---\nbody") rfl rfl
  · exact c10_metadata_cache.2.1 _ _ ("A") ⟨("A"), [(("name"), ("A"))], ("_skill_cache/A/SKILL.md")⟩
      rfl rfl

/-- Every emitted blob's path comes from some row of the send list. -/
theorem emitBlobs_rel_mem (content : String → String) :
    ∀ (items : List SendEntry) (yielded fps : List String) (b : EmittedBlob),
      b ∈ emitBlobs content items yielded fps → ∃ e ∈ items, b.rel = e.rel := by
  intro items
  induction items with
  | nil => intro yielded fps b hb; simp [emitBlobs] at hb
  | cons e rest ih =>
    intro yielded fps b hb
    by_cases h1 : memStr e.rel yielded
    · rcases ih _ _ _ (by simpa [emitBlobs, h1] using hb) with ⟨e', he', hr⟩
      exact ⟨e', List.mem_cons_of_mem _ he', hr⟩
    · by_cases h2 : memStr (e.outName ++ ("|") ++ e.mime ++ ("|") ++ content e.rel) fps
      · rcases ih _ _ _ (by simpa [emitBlobs, h1, h2] using hb) with ⟨e', he', hr⟩
        exact ⟨e', List.mem_cons_of_mem _ he', hr⟩
      · have hb' : b = ⟨e.rel, e.outName, e.mime, content e.rel⟩ ∨
            b ∈ emitBlobs content rest (e.rel :: yielded)
              ((e.outName ++ ("|") ++ e.mime ++ ("|") ++ content e.rel) :: fps) := by
          simpa [emitBlobs, h1, h2] using hb
        rcases hb' with rfl | hb'
        · exact ⟨e, List.mem_cons_self _ _, rfl⟩
        · rcases ih _ _ _ hb' with ⟨e', he', hr⟩
          exact ⟨e', List.mem_cons_of_mem _ he', hr⟩

/-- Every send-list row is an existing session file outside `_skill_cache/`. -/
theorem filesToSend_rel (meta : List (String × ExportMeta)) (entries : List String)
    (e : SendEntry) (he : e ∈ filesToSend meta entries) :
    e.rel ∈ entries ∧ strStarts (relNorm e.rel) ("_skill_cache/") = false := by
  rcases List.mem_filterMap.1 he with ⟨rel, hrel, hf⟩
  by_cases hp : strStarts (relNorm rel) ("_skill_cache/") = true
  · simp [hp] at hf
  · rw [if_neg (by simp [hp])] at hf
    injection hf with hf
    subst hf
    exact ⟨hrel, by simpa using hp⟩

/-- With pairwise-distinct paths and fingerprints, the dedup passes are
inert: the emitted paths are exactly the send-list paths, in order. -/
theorem emitBlobs_map_rel (content : String → String) :
    ∀ (items : List SendEntry) (yielded fps : List String),
      (∀ e ∈ items, memStr e.rel yielded = false) →
      (∀ e ∈ items,
        memStr (e.outName ++ ("|") ++ e.mime ++ ("|") ++ content e.rel) fps = false) →
      (items.map SendEntry.rel).Nodup →
      (items.map (fun e => e.outName ++ ("|") ++ e.mime ++ ("|") ++ content e.rel)).Nodup →
      (emitBlobs content items yielded fps).map EmittedBlob.rel =
        items.map SendEntry.rel := by
  intro items
  induction items with
  | nil => intro _ _ _ _ _ _; simp [emitBlobs]
  | cons e rest ih =>
    intro yielded fps hy hf hn hk
    have hy0 := hy e (List.mem_cons_self _ _)
    have hf0 := hf e (List.mem_cons_self _ _)
    have hrelne : ∀ e' ∈ rest, ¬ e'.rel = e.rel := by
      intro e' he' heq
      exact (List.nodup_cons.1 hn).1 (heq ▸ List.mem_map_of_mem SendEntry.rel he')
    have hkeyne : ∀ e' ∈ rest,
        ¬ (e'.outName ++ ("|") ++ e'.mime ++ ("|") ++ content e'.rel) =
          (e.outName ++ ("|") ++ e.mime ++ ("|") ++ content e.rel) := by
      intro e' he' heq
      have hmem : (e.outName ++ ("|") ++ e.mime ++ ("|") ++ content e.rel) ∈
          rest.map (fun e => e.outName ++ ("|") ++ e.mime ++ ("|") ++ content e.rel) := by
        rw [← heq]
        exact List.mem_map_of_mem _ he'
      exact (List.nodup_cons.1 hk).1 hmem
    simp only [emitBlobs, hy0, hf0, Bool.false_eq_true, if_false, List.map_cons]
    congr 1
    refine ih (e.rel :: yielded)
      ((e.outName ++ ("|") ++ e.mime ++ ("|") ++ content e.rel) :: fps) ?_ ?_
      (List.nodup_cons.1 hn).2 (List.nodup_cons.1 hk).2
    · intro e' he'
      simp [memStr, if_neg (Ne.symm (hrelne e' he')), hy e' (List.mem_cons_of_mem _ he')]
    · intro e' he'
      simp [memStr, if_neg (Ne.symm (hkeyne e' he')), hf e' (List.mem_cons_of_mem _ he')]

/-- Claim C2 counterexample: a session whose listing contains only
`uploads/in.csv` and whose export set is empty.  The claim predicts no blobs
(nothing was passed to `export_temp_file`, and `uploads/` is never exported);
the code emits the uploaded file. -/
theorem c2_export_counterexample :
    emittedBlobs [] (fun _ => ("csvdata")) [("uploads/in.csv")] =
      [⟨("uploads/in.csv"), ("in.csv"), ("text/csv"), ("csvdata")⟩] ∧
    emittedBlobs [] (fun _ => ("csvdata")) [("uploads/in.csv")] ≠ [] := by
  constructor <;> decide

/-- Claim C2 (corrected): at turn termination the emitted blobs are drawn
exactly from the files existing under `session_dir` whose normalised path
does not start with `_skill_cache/` — deduplicated per path and per
`(name, MIME, digest)` fingerprint — regardless of the export set;
`export_temp_file` only overrides the delivered filename and MIME type.
Files under `uploads/` are emitted. -/
theorem c2_export_amended :
    (∀ (meta : List (String × ExportMeta)) (content : String → String)
        (entries : List String) (b : EmittedBlob),
      b ∈ emittedBlobs meta content entries →
      b.rel ∈ entries ∧ strStarts (relNorm b.rel) ("_skill_cache/") = false) ∧
    (∀ (meta : List (String × ExportMeta)) (content : String → String)
        (entries : List String),
      ((filesToSend meta entries).map SendEntry.rel).Nodup →
      ((filesToSend meta entries).map
        (fun e => e.outName ++ ("|") ++ e.mime ++ ("|") ++ content e.rel)).Nodup →
      (emittedBlobs meta content entries).map EmittedBlob.rel =
        (filesToSend meta entries).map SendEntry.rel) ∧
    emittedBlobs [] (fun _ => ("data")) [("uploads/in.csv")] =
      [⟨("uploads/in.csv"), ("in.csv"), ("text/csv"), ("data")⟩] := by
  refine ⟨?_, ?_, by decide⟩
  · intro meta content entries b hb
    rcases emitBlobs_rel_mem content _ _ _ _ hb with ⟨e, he, hr⟩
    have := filesToSend_rel meta entries e he
    exact ⟨hr ▸ this.1, hr ▸ this.2⟩
  · intro meta content entries hn hk
    exact emitBlobs_map_rel content _ [] [] (fun _ _ => rfl) (fun _ _ => rfl) hn hk

/-- Witness for C2's quantified conjuncts at a concrete session listing. -/
theorem c2_export_amended_witness :
    ((⟨("uploads/in.csv"), ("in.csv"), ("text/csv"), ("data")⟩ : EmittedBlob).rel ∈
        [("uploads/in.csv")] ∧
      strStarts (relNorm (("uploads/in.csv") : String)) ("_skill_cache/") = false) ∧
    (emittedBlobs [] (fun _ => ("data")) [("a.txt"), ("uploads/in.csv")]).map EmittedBlob.rel =
      (filesToSend [] [("a.txt"), ("uploads/in.csv")]).map SendEntry.rel := by
  constructor
  · exact c2_export_amended.1 [] (fun _ => ("data")) [("uploads/in.csv")]
      ⟨("uploads/in.csv"), ("in.csv"), ("text/csv"), ("data")⟩ (by decide)
  · exact c2_export_amended.2.1 [] (fun _ => ("data")) [("a.txt"), ("uploads/in.csv")]
      (by decide) (by decide)

/-- Claim C5 (confirmed; rewrite bodies modelled from the spec, composition
from the source): before the child of `run_skill_command` is spawned,
`uploads/`-relative tokens, bare filenames of existing session files, and
relative `--out`/`-o`/`--output` values are replaced by absolute paths under
`session_dir`; in scenario S4 the executed argv carries
`<session_dir>/uploads/in.csv` and `<session_dir>/result.xlsx`. -/
theorem c5_argument_rewriting :
    (∀ (sd t : String) (pre post : List String), strStarts t ("uploads/") = true →
      rewriteUploadsArgs sd (pre ++ t :: post) =
        rewriteUploadsArgs sd pre ++ (sd ++ ("/") ++ t) :: rewriteUploadsArgs sd post) ∧
    (∀ (fexists : String → Bool) (sd t : String),
      t.toList.contains slashChar = false → fexists t = true →
      rewriteExistingArgs fexists sd [t] = [sd ++ ("/") ++ t]) ∧
    (∀ (sd f v : String), memStr f outFlags = true → strStarts v ("/") = false →
      rewriteOutArgs sd [f, v] = [f, sd ++ ("/") ++ v]) ∧
    (∀ (fexists : String → Bool) (sd res : String),
      (∀ t, fexists t = false) →
      strStarts res ("uploads/") = false →
      memStr res outFlags = false →
      memStr (sd ++ ("/") ++ ("uploads/in.csv")) outFlags = false →
      rewriteCommandArgs fexists sd
        [res, ("script.py"), ("uploads/in.csv"), ("--out"), ("result.xlsx")] =
        [res, ("script.py"), sd ++ ("/") ++ ("uploads/in.csv"), ("--out"),
         sd ++ ("/") ++ ("result.xlsx")]) := by
  refine ⟨?_, ?_, ?_, ?_⟩
  · intro sd t pre post h
    simp [rewriteUploadsArgs, h]
  · intro fexists sd t h1 h2
    have h1' : slashChar ∉ t.data := by simpa [String.toList] using h1
    simp [rewriteExistingArgs, h1', h2]
  · intro sd f v h1 h2
    simp [rewriteOutArgs, h1, h2]
  · intro fexists sd res hfex hres1 hres2 h6
    have e1 : strStarts ("script.py") ("uploads/") = false := by decide
    have e2 : strStarts ("uploads/in.csv") ("uploads/") = true := by decide
    have e3 : strStarts ("--out") ("uploads/") = false := by decide
    have e4 : strStarts ("result.xlsx") ("uploads/") = false := by decide
    have e5 : memStr ("script.py") outFlags = false := by decide
    have e6 : memStr ("--out") outFlags = true := by decide
    have e7 : strStarts ("result.xlsx") ("/") = false := by decide
    simp [rewriteCommandArgs, rewriteUploadsArgs, rewriteExistingArgs, rewriteOutArgs,
          e1, e2, e3, e4, e5, e6, e7, hres1, hres2, h6, hfex]

/-- Witness for C5 at the S4 scenario with a concrete session directory. -/
theorem c5_argument_rewriting_witness :
    rewriteCommandArgs (fun _ => false) ("/sess")
      [("/usr/bin/python3"), ("script.py"), ("uploads/in.csv"), ("--out"), ("result.xlsx")] =
      [("/usr/bin/python3"), ("script.py"), ("/sess") ++ ("/") ++ ("uploads/in.csv"), ("--out"),
       ("/sess") ++ ("/") ++ ("result.xlsx")] := by
  exact c5_argument_rewriting.2.2.2 (fun _ => false) ("/sess") ("/usr/bin/python3")
    (fun _ => rfl) (by decide) (by decide) (by decide)

/-- Updating a key makes its lookup return the new value. -/
theorem dictGet_dictSet_self {α : Type} (l : List (String × α)) (k : String) (v : α) :
    dictGet (dictSet l k v) k = some v := by
  induction l with
  | nil => simp [dictSet, dictGet]
  | cons p rest ih =>
    obtain ⟨k0, v0⟩ := p
    by_cases hk : k0 = k
    · subst hk; simp [dictSet, dictGet]
    · simp [dictSet, dictGet, hk, ih]

/-- A step only grows the metadata ledger, and only through a successful
`get_skill_metadata` on that very name. -/
theorem gateStep_metadata_mono (mdOk : String → Bool) (st : Ledger) (c : SkillCall)
    (s : String) (h : hasSkillMetadata (gateStep mdOk st c).2 s = true) :
    hasSkillMetadata st s = true ∨
      (c = SkillCall.getMeta s ∧ (gateStep mdOk st c).1 = GateOutcome.dispatched true) := by
  cases c with
  | getMeta s0 =>
    by_cases hok : mdOk s0 = true
    · by_cases hss : s0 = s
      · subst hss
        exact Or.inr ⟨rfl, by simp [gateStep, hok]⟩
      · refine Or.inl ?_
        simp only [gateStep] at h
        rw [hok] at h
        simp only [if_true, Bool.true_eq_false] at h
        simpa [hasSkillMetadata, dictGet_dictSet_ne _ _ _ _ hss] using h
    · refine Or.inl ?_
      simp only [gateStep] at h
      simpa [hok] using h
  | listFiles s0 =>
    by_cases hg : hasSkillMetadata st s0 = true
    · refine Or.inl ?_
      simp only [gateStep] at h
      rw [hg] at h
      simp only [if_true] at h
      simpa [hasSkillMetadata] using h
    · refine Or.inl ?_
      simp only [gateStep] at h
      simpa [hg] using h
  | readFile s0 r0 =>
    refine Or.inl ?_
    simp only [gateStep] at h
    by_cases hg : hasSkillMetadata st s0 = true
    · simpa [hg] using h
    · simpa [hg] using h
  | runCmd s0 cm0 =>
    refine Or.inl ?_
    simp only [gateStep] at h
    by_cases hg1 : hasSkillMetadata st s0 = true
    · by_cases hg2 : hasListedSkillFiles st s0 = true
      · simpa [hg1, hg2] using h
      · simpa [hg1, hg2] using h
    · simpa [hg1] using h

/-- A step only grows the listed-files ledger, and only through a dispatched
`list_skill_files` on that very (raw) name. -/
theorem gateStep_filesListed_mono (mdOk : String → Bool) (st : Ledger) (c : SkillCall)
    (s : String) (h : memStr s (gateStep mdOk st c).2.filesListed = true) :
    memStr s st.filesListed = true ∨
      (c = SkillCall.listFiles s ∧ (gateStep mdOk st c).1 = GateOutcome.dispatched true) := by
  cases c with
  | getMeta s0 =>
    refine Or.inl ?_
    simp only [gateStep] at h
    by_cases hok : mdOk s0 = true
    · simpa [hok] using h
    · simpa [hok] using h
  | listFiles s0 =>
    by_cases hg : hasSkillMetadata st s0 = true
    · by_cases hss : s0 = s
      · subst hss
        exact Or.inr ⟨rfl, by simp [gateStep, hg]⟩
      · refine Or.inl ?_
        simp only [gateStep] at h
        rw [hg] at h
        simp only [if_true] at h
        simpa [memStr, hss] using h
    · refine Or.inl ?_
      simp only [gateStep] at h
      simpa [hg] using h
  | readFile s0 r0 =>
    refine Or.inl ?_
    simp only [gateStep] at h
    by_cases hg : hasSkillMetadata st s0 = true
    · simpa [hg] using h
    · simpa [hg] using h
  | runCmd s0 cm0 =>
    refine Or.inl ?_
    simp only [gateStep] at h
    by_cases hg1 : hasSkillMetadata st s0 = true
    · by_cases hg2 : hasListedSkillFiles st s0 = true
      · simpa [hg1, hg2] using h
      · simpa [hg1, hg2] using h
    · simpa [hg1] using h

/-- Trace invariant: with a ledger justified by `past`, every dispatched
gated call in the remaining trace has its prerequisites among the events that
precede it. -/
theorem runGate_gating (mdOk : String → Bool) :
    ∀ (calls : List SkillCall) (st : Ledger) (past : List (SkillCall × GateOutcome)),
      (∀ s, hasSkillMetadata st s = true →
        (SkillCall.getMeta s, GateOutcome.dispatched true) ∈ past) →
      (∀ s, memStr s st.filesListed = true →
        (SkillCall.listFiles s, GateOutcome.dispatched true) ∈ past) →
      ∀ (pre post : List (SkillCall × GateOutcome)) (c : SkillCall) (o : GateOutcome) (b : Bool),
        runGate mdOk st calls = pre ++ (c, o) :: post → o = GateOutcome.dispatched b →
        (∀ s, c = SkillCall.listFiles s →
          (SkillCall.getMeta s, GateOutcome.dispatched true) ∈ past ++ pre) ∧
        (∀ s r, c = SkillCall.readFile s r →
          (SkillCall.getMeta s, GateOutcome.dispatched true) ∈ past ++ pre) ∧
        (∀ s cm, c = SkillCall.runCmd s cm →
          (SkillCall.getMeta s, GateOutcome.dispatched true) ∈ past ++ pre ∧
          (SkillCall.listFiles (pyStrip s), GateOutcome.dispatched true) ∈ past ++ pre) := by
  intro calls
  induction calls with
  | nil =>
    intro st past hmd hfl pre post c o b heq hob
    exact absurd heq (by simp [runGate])
  | cons c0 rest ih =>
    intro st past hmd hfl pre post c o b heq hob
    rw [runGate] at heq
    cases pre with
    | nil =>
      rw [List.nil_append] at heq
      injection heq with h1 h2
      injection h1 with hc hoeq
      subst hc
      subst hoeq
      refine ⟨?_, ?_, ?_⟩
      · intro s hcs
        subst hcs
        by_cases hg : hasSkillMetadata st s = true
        · simpa using hmd s hg
        · rw [show (gateStep mdOk st (SkillCall.listFiles s)).1 =
              GateOutcome.blocked ("skill_md_required") from by simp [gateStep, hg]] at hob
          cases hob
      · intro s r hcs
        subst hcs
        by_cases hg : hasSkillMetadata st s = true
        · simpa using hmd s hg
        · rw [show (gateStep mdOk st (SkillCall.readFile s r)).1 =
              GateOutcome.blocked ("skill_md_required") from by simp [gateStep, hg]] at hob
          cases hob
      · intro s cm hcs
        subst hcs
        by_cases hg1 : hasSkillMetadata st s = true
        · by_cases hg2 : hasListedSkillFiles st s = true
          · constructor
            · simpa using hmd s hg1
            · simpa using hfl (pyStrip s) (by simpa [hasListedSkillFiles] using hg2)
          · rw [show (gateStep mdOk st (SkillCall.runCmd s cm)).1 =
                GateOutcome.blocked ("skill_files_listing_required") from by
                  simp [gateStep, hg1, hg2]] at hob
            cases hob
        · rw [show (gateStep mdOk st (SkillCall.runCmd s cm)).1 =
              GateOutcome.blocked ("skill_md_required") from by simp [gateStep, hg1]] at hob
          cases hob
    | cons p0 pre' =>
      rw [List.cons_append] at heq
      injection heq with h1 h2
      subst h1
      have hmd' : ∀ s, hasSkillMetadata (gateStep mdOk st c0).2 s = true →
          (SkillCall.getMeta s, GateOutcome.dispatched true) ∈
            past ++ [(c0, (gateStep mdOk st c0).1)] := by
        intro s hs
        rcases gateStep_metadata_mono mdOk st c0 s hs with h | ⟨hceq, hout⟩
        · exact List.mem_append_left _ (hmd s h)
        · subst hceq
          exact List.mem_append_right _ (by simp [hout])
      have hfl' : ∀ s, memStr s (gateStep mdOk st c0).2.filesListed = true →
          (SkillCall.listFiles s, GateOutcome.dispatched true) ∈
            past ++ [(c0, (gateStep mdOk st c0).1)] := by
        intro s hs
        rcases gateStep_filesListed_mono mdOk st c0 s hs with h | ⟨hceq, hout⟩
        · exact List.mem_append_left _ (hfl s h)
        · subst hceq
          exact List.mem_append_right _ (by simp [hout])
      have hres := ih (gateStep mdOk st c0).2 (past ++ [(c0, (gateStep mdOk st c0).1)])
        hmd' hfl' pre' post c o b h2 hob
      simpa [List.append_assoc] using hres

/-- Claim C1 (confirmed; gate modelled from the spec over the source ledger):
within a turn, `list_skill_files(S)`, `read_skill_file(S, _)` and
`run_skill_command(S, _)` are dispatched only after a successful
`get_skill_metadata(S)` earlier in the turn, and `run_skill_command(S, _)`
additionally only after a `list_skill_files` of the stripped name (the
`has_listed_skill_files` predicate strips the queried name, so the prior list
call is on `S.strip()`, which is `S` itself for whitespace-free names); a
violating call is not dispatched, leaves the ledger unchanged, and returns the
structured error naming the missing prerequisite. -/
theorem c1_ledger_gating :
    (∀ (mdOk : String → Bool) (st : Ledger) (s : String),
      hasSkillMetadata st s = false →
      gateStep mdOk st (SkillCall.listFiles s) =
        (GateOutcome.blocked ("skill_md_required"), st)) ∧
    (∀ (mdOk : String → Bool) (st : Ledger) (s r : String),
      hasSkillMetadata st s = false →
      gateStep mdOk st (SkillCall.readFile s r) =
        (GateOutcome.blocked ("skill_md_required"), st)) ∧
    (∀ (mdOk : String → Bool) (st : Ledger) (s : String) (cm : List String),
      hasSkillMetadata st s = false →
      gateStep mdOk st (SkillCall.runCmd s cm) =
        (GateOutcome.blocked ("skill_md_required"), st)) ∧
    (∀ (mdOk : String → Bool) (st : Ledger) (s : String) (cm : List String),
      hasSkillMetadata st s = true → hasListedSkillFiles st s = false →
      gateStep mdOk st (SkillCall.runCmd s cm) =
        (GateOutcome.blocked ("skill_files_listing_required"), st)) ∧
    (∀ (mdOk : String → Bool) (calls : List SkillCall)
        (pre post : List (SkillCall × GateOutcome)) (c : SkillCall) (o : GateOutcome) (b : Bool),
      runGate mdOk ⟨[], []⟩ calls = pre ++ (c, o) :: post → o = GateOutcome.dispatched b →
      (∀ s, c = SkillCall.listFiles s →
        (SkillCall.getMeta s, GateOutcome.dispatched true) ∈ pre) ∧
      (∀ s r, c = SkillCall.readFile s r →
        (SkillCall.getMeta s, GateOutcome.dispatched true) ∈ pre) ∧
      (∀ s cm, c = SkillCall.runCmd s cm →
        (SkillCall.getMeta s, GateOutcome.dispatched true) ∈ pre ∧
        (SkillCall.listFiles (pyStrip s), GateOutcome.dispatched true) ∈ pre)) := by
  refine ⟨?_, ?_, ?_, ?_, ?_⟩
  · intro mdOk st s h; simp [gateStep, h]
  · intro mdOk st s r h; simp [gateStep, h]
  · intro mdOk st s cm h; simp [gateStep, h]
  · intro mdOk st s cm h1 h2; simp [gateStep, h1, h2]
  · intro mdOk calls pre post c o b heq hob
    have h := runGate_gating mdOk calls ⟨[], []⟩ []
      (fun s hs => absurd hs (by simp [hasSkillMetadata, dictGet]))
      (fun s hs => absurd hs (by simp [memStr]))
      pre post c o b heq hob
    simpa using h

/-- Witness for C1: the gate blocks an unprepared `list_skill_files`, and in
the compliant trace `get_skill_metadata(A); list_skill_files(A);
run_skill_command(A, [python])` the run call's prerequisites precede it. -/
theorem c1_ledger_gating_witness :
    gateStep (fun _ => true) ⟨[], []⟩ (SkillCall.listFiles ("A")) =
      (GateOutcome.blocked ("skill_md_required"), (⟨[], []⟩ : Ledger)) ∧
    ((SkillCall.getMeta ("A"), GateOutcome.dispatched true) ∈
        [(SkillCall.getMeta ("A"), GateOutcome.dispatched true),
         (SkillCall.listFiles ("A"), GateOutcome.dispatched true)] ∧
      (SkillCall.listFiles (pyStrip ("A")), GateOutcome.dispatched true) ∈
        [(SkillCall.getMeta ("A"), GateOutcome.dispatched true),
         (SkillCall.listFiles ("A"), GateOutcome.dispatched true)]) := by
  constructor
  · exact c1_ledger_gating.1 (fun _ => true) ⟨[], []⟩ ("A") (by decide)
  · exact (c1_ledger_gating.2.2.2.2 (fun _ => true)
      [SkillCall.getMeta ("A"), SkillCall.listFiles ("A"),
       SkillCall.runCmd ("A") [("python")]]
      [(SkillCall.getMeta ("A"), GateOutcome.dispatched true),
       (SkillCall.listFiles ("A"), GateOutcome.dispatched true)]
      [] (SkillCall.runCmd ("A") [("python")]) (GateOutcome.dispatched true) true
      (by decide) rfl).2.2 ("A") [("python")] rfl

/-- Bool prefix test introduces an append decomposition. -/
theorem isPrefixOf_exists_append :
    ∀ (p l : List Char), p.isPrefixOf l = true → ∃ t, p ++ t = l := by
  intro p
  induction p with
  | nil => intro l _; exact ⟨l, rfl⟩
  | cons a as ih =>
    intro l h
    cases l with
    | nil => simp [List.isPrefixOf] at h
    | cons b bs =>
      simp only [List.isPrefixOf, Bool.and_eq_true, beq_iff_eq] at h
      rcases h with ⟨rfl, h2⟩
      rcases ih bs h2 with ⟨t, ht⟩
      exact ⟨t, by rw [List.cons_append, ht]⟩

/-- The converse: a list is a Bool-prefix of itself extended. -/
theorem isPrefixOf_append_self : ∀ (p t : List Char), p.isPrefixOf (p ++ t) = true := by
  intro p t
  induction p with
  | nil => simp [List.isPrefixOf]
  | cons a as ih => simp [List.isPrefixOf, ih]

/-- `splitNlRaw` never returns an empty list of pieces. -/
theorem splitNlRaw_ne_nil (l : List Char) : splitNlRaw l ≠ [] := by
  cases l with
  | nil => simp [splitNlRaw]
  | cons c rest =>
    by_cases hc : c = nlChar
    · simp [splitNlRaw, hc]
    · simp only [splitNlRaw, hc, if_false]
      cases h : splitNlRaw rest <;> simp

/-- Splitting distributes over a separator occurrence. -/
theorem splitNlRaw_append (xs ys : List Char) :
    splitNlRaw (xs ++ nlChar :: ys) = splitNlRaw xs ++ splitNlRaw ys := by
  induction xs with
  | nil => simp [splitNlRaw]
  | cons c t ih =>
    obtain ⟨l0, ls0, ht⟩ : ∃ l0 ls0, splitNlRaw t = l0 :: ls0 := by
      cases h : splitNlRaw t with
      | nil => exact absurd h (splitNlRaw_ne_nil t)
      | cons a b => exact ⟨a, b, rfl⟩
    by_cases hc : c = nlChar
    · subst hc
      simp [splitNlRaw, ih]
    · rw [List.cons_append]
      simp [splitNlRaw, hc, ih, ht, List.cons_append]

/-- A newline-free text is a single piece. -/
theorem splitNlRaw_eq_single (xs : List Char) (h : nlChar ∉ xs) : splitNlRaw xs = [xs] := by
  induction xs with
  | nil => simp [splitNlRaw]
  | cons c t ih =>
    have hc : ¬ c = nlChar := by intro hh; subst hh; exact h (List.mem_cons_self _ _)
    have ht : nlChar ∉ t := fun hh => h (List.mem_cons_of_mem _ hh)
    simp [splitNlRaw, hc, ih ht]

/-- Joining undoes splitting. -/
theorem joinNl_splitNlRaw (l : List Char) : joinNl (splitNlRaw l) = l := by
  induction l with
  | nil => simp [splitNlRaw, joinNl]
  | cons c t ih =>
    obtain ⟨l0, ls0, ht⟩ : ∃ l0 ls0, splitNlRaw t = l0 :: ls0 := by
      cases h : splitNlRaw t with
      | nil => exact absurd h (splitNlRaw_ne_nil t)
      | cons a b => exact ⟨a, b, rfl⟩
    by_cases hc : c = nlChar
    · subst hc
      rw [show splitNlRaw (nlChar :: t) = [] :: splitNlRaw t from by simp [splitNlRaw]]
      rw [ht] at ih ⊢
      simp only [joinNl]
      rw [ih]
      simp
    · rw [show splitNlRaw (c :: t) = (c :: l0) :: ls0 from by simp [splitNlRaw, hc, ht]]
      rw [ht] at ih
      cases ls0 with
      | nil =>
        simp only [joinNl] at ih ⊢
        rw [ih]
      | cons y ys =>
        simp only [joinNl] at ih ⊢
        rw [List.cons_append, ih]

/-- Characters of the split pieces come from the text. -/
theorem mem_splitNlRaw_piece (x : List Char) :
    ∀ p ∈ splitNlRaw x, ∀ c ∈ p, c ∈ x := by
  induction x with
  | nil =>
    intro p hp c hc
    simp [splitNlRaw] at hp
    subst hp
    simp at hc
  | cons a t ih =>
    intro p hp c hc
    by_cases ha : a = nlChar
    · subst ha
      rw [show splitNlRaw (nlChar :: t) = [] :: splitNlRaw t from by simp [splitNlRaw]] at hp
      rcases List.mem_cons.1 hp with rfl | hp
      · simp at hc
      · exact List.mem_cons_of_mem _ (ih p hp c hc)
    · obtain ⟨l0, ls0, ht⟩ : ∃ l0 ls0, splitNlRaw t = l0 :: ls0 := by
        cases h : splitNlRaw t with
        | nil => exact absurd h (splitNlRaw_ne_nil t)
        | cons u v => exact ⟨u, v, rfl⟩
      rw [show splitNlRaw (a :: t) = (a :: l0) :: ls0 from by simp [splitNlRaw, ha, ht]] at hp
      rcases List.mem_cons.1 hp with rfl | hp
      · rcases List.mem_cons.1 hc with rfl | hc
        · exact List.mem_cons_self _ _
        · exact List.mem_cons_of_mem _ (ih l0 (by rw [ht]; exact List.mem_cons_self _ _) c hc)
      · exact List.mem_cons_of_mem _ (ih p (by rw [ht]; exact List.mem_cons_of_mem _ hp) c hc)

/-- Characters of a join come from the pieces or are newlines. -/
theorem mem_joinNl (ls : List (List Char)) (c : Char) (h : c ∈ joinNl ls) :
    (∃ p ∈ ls, c ∈ p) ∨ c = nlChar := by
  induction ls with
  | nil => simp [joinNl] at h
  | cons l rest ih =>
    cases rest with
    | nil =>
      simp only [joinNl] at h
      exact Or.inl ⟨l, List.mem_cons_self _ _, h⟩
    | cons y ys =>
      simp only [joinNl] at h
      rcases List.mem_append.1 h with h | h
      · exact Or.inl ⟨l, List.mem_cons_self _ _, h⟩
      · rcases List.mem_cons.1 h with rfl | h
        · exact Or.inr rfl
        · rcases ih h with ⟨p, hp, hc⟩ | h
          · exact Or.inl ⟨p, List.mem_cons_of_mem _ hp, hc⟩
          · exact Or.inr h

/-- Stripping only removes characters. -/
theorem mem_pyStripL (l : List Char) (c : Char) (h : c ∈ pyStripL l) : c ∈ l := by
  unfold pyStripL stripEnds at h
  have h1 := List.mem_reverse.1 h
  have h2 := (List.dropWhile_sublist _).subset h1
  have h3 := List.mem_reverse.1 h2
  exact (List.dropWhile_sublist _).subset h3

/-- The fence stripper only removes characters (modulo rebuilt newlines). -/
theorem mem_stripFenceWrapper (s : List Char) (c : Char) (h : c ∈ stripFenceWrapper s) :
    c ∈ s ∨ c = nlChar := by
  unfold stripFenceWrapper at h
  split at h
  · split at h
    · split at h
      · have h1 := mem_pyStripL _ _ h
        rcases mem_joinNl _ _ h1 with ⟨p, hp, hc⟩ | h2
        · have hp1 : p ∈ pySplitlinesL s :=
            (List.drop_sublist _ _).subset ((List.dropLast_sublist _).subset hp)
          have hp2 : p ∈ splitNlRaw s := by
            unfold pySplitlinesL at hp1
            split at hp1
            · simp at hp1
            · split at hp1
              · exact (List.dropLast_sublist _).subset hp1
              · exact hp1
          exact Or.inl (mem_splitNlRaw_piece s p hp2 c hc)
        · exact Or.inr h2
      · exact Or.inl h
    · exact Or.inl h
  · exact Or.inl h

/-- A brace-free text has no first brace. -/
theorem findLbrace_eq_none (s : List Char) (h : lbrace ∉ s) : findLbrace s = none := by
  induction s with
  | nil => rfl
  | cons c rest ih =>
    have hc : ¬ c = lbrace := by intro hh; subst hh; exact h (List.mem_cons_self _ _)
    have hr : lbrace ∉ rest := fun hh => h (List.mem_cons_of_mem _ hh)
    simp [findLbrace, hc, ih hr]

/-- Finding the first brace skips a brace-free prefix. -/
theorem findLbrace_append (pre x : List Char) (h : lbrace ∉ pre) :
    findLbrace (pre ++ x) = (findLbrace x).map (· + pre.length) := by
  induction pre with
  | nil => cases hx : findLbrace x <;> simp [hx]
  | cons c t ih =>
    have hc : ¬ c = lbrace := by intro hh; subst hh; exact h (List.mem_cons_self _ _)
    have ht : lbrace ∉ t := fun hh => h (List.mem_cons_of_mem _ hh)
    rw [List.cons_append]
    rw [show findLbrace (c :: (t ++ x)) = (findLbrace (t ++ x)).map (· + 1) from by
      simp [findLbrace, hc]]
    rw [ih ht]
    cases hx : findLbrace x <;> simp [hx, Nat.add_assoc]

/-- A stable text stays stable when a non-whitespace-headed tail follows. -/
theorem dropWhile_append_stable (xs ys : List Char) (c : Char)
    (hxs : xs.dropWhile isPyWhitespace = xs) (hys : ys.head? = some c)
    (hc : isPyWhitespace c = false) :
    (xs ++ ys).dropWhile isPyWhitespace = xs ++ ys := by
  cases xs with
  | nil =>
    cases ys with
    | nil => simp at hys
    | cons a t =>
      injection hys with ha
      subst ha
      simp [List.dropWhile_cons, hc]
  | cons a t =>
    by_cases hp : isPyWhitespace a = true
    · exfalso
      rw [List.dropWhile_cons, if_pos hp] at hxs
      have hlen := congrArg List.length hxs
      have hle : (t.dropWhile isPyWhitespace).length ≤ t.length :=
        (List.dropWhile_sublist _).length_le
      simp at hlen
      omega
    · rw [List.cons_append, List.dropWhile_cons, if_neg hp]

/-- Stripping is the identity on two-sided-stable texts. -/
theorem pyStripL_eq_self (l : List Char)
    (h1 : l.dropWhile isPyWhitespace = l)
    (h2 : l.reverse.dropWhile isPyWhitespace = l.reverse) :
    pyStripL l = l := by
  unfold pyStripL stripEnds
  rw [h1, h2, List.reverse_reverse]

/-- A balanced scan is insensitive to what follows the closing brace. -/
theorem scanToClose_append (ys : List Char) :
    ∀ (xs : List Char) (d : Int) (i e : Bool) (j : Nat),
      scanToClose xs d i e = some j → scanToClose (xs ++ ys) d i e = some j := by
  intro xs
  induction xs with
  | nil => intro d i e j h; exact absurd h (by simp [scanToClose])
  | cons c rest ih =>
    intro d i e j h
    rw [List.cons_append]
    rw [scanToClose] at h
    rw [scanToClose]
    by_cases hi : i = true
    · rw [if_pos hi] at h ⊢
      by_cases he : e = true
      · rw [if_pos he] at h ⊢
        rcases Option.map_eq_some'.1 h with ⟨j', hj', hje⟩
        rw [ih d i false j' hj']
        simp [hje]
      · rw [if_neg he] at h ⊢
        by_cases hb : c = bslash
        · rw [if_pos hb] at h ⊢
          rcases Option.map_eq_some'.1 h with ⟨j', hj', hje⟩
          rw [ih d i true j' hj']
          simp [hje]
        · rw [if_neg hb] at h ⊢
          by_cases hq : c = dquote
          · rw [if_pos hq] at h ⊢
            rcases Option.map_eq_some'.1 h with ⟨j', hj', hje⟩
            rw [ih d false e j' hj']
            simp [hje]
          · rw [if_neg hq] at h ⊢
            rcases Option.map_eq_some'.1 h with ⟨j', hj', hje⟩
            rw [ih d i e j' hj']
            simp [hje]
    · rw [if_neg hi] at h ⊢
      by_cases hq : c = dquote
      · rw [if_pos hq] at h ⊢
        rcases Option.map_eq_some'.1 h with ⟨j', hj', hje⟩
        rw [ih d true e j' hj']
        simp [hje]
      · rw [if_neg hq] at h ⊢
        by_cases hlb : c = lbrace
        · rw [if_pos hlb] at h ⊢
          rcases Option.map_eq_some'.1 h with ⟨j', hj', hje⟩
          rw [ih (d + 1) i e j' hj']
          simp [hje]
        · rw [if_neg hlb] at h ⊢
          by_cases hrb : c = rbrace
          · rw [if_pos hrb] at h ⊢
            by_cases hd : d - 1 = 0
            · rw [if_pos hd] at h ⊢
              exact h
            · rw [if_neg hd] at h ⊢
              rcases Option.map_eq_some'.1 h with ⟨j', hj', hje⟩
              rw [ih (d - 1) i e j' hj']
              simp [hje]
          · rw [if_neg hrb] at h ⊢
            rcases Option.map_eq_some'.1 h with ⟨j', hj', hje⟩
            rw [ih d i e j' hj']
            simp [hje]

/-- A text headed by a non-whitespace character is left-strip stable. -/
theorem dropWhile_eq_self_of_head (ys : List Char) (c : Char) (hys : ys.head? = some c)
    (hc : isPyWhitespace c = false) : ys.dropWhile isPyWhitespace = ys := by
  have h := dropWhile_append_stable [] ys c (by simp) hys hc
  simpa using h

/-- The last element of an append with a non-empty right part. -/
theorem getLast?_append_right (xs : List Char) (c : Char) (ys : List Char) :
    (xs ++ c :: ys).getLast? = (c :: ys).getLast? :=
  @List.getLast?_append_of_ne_nil _ xs (c :: ys) (by simp)

/-- Claim C7 (confirmed): for text of the form prefix-garbage, one balanced
JSON object (balanced in the scanner's quote/escape-tracking sense), then
suffix-garbage, `_extract_first_json_object` returns exactly the substring
spanning that object; when the whole text is wrapped in a fenced code block
(a ``` line first and last) the fence lines are removed before scanning; and
for text containing no opening brace it returns absence. -/
theorem c7_json_extraction :
    (∀ text : List Char, lbrace ∉ text → extractFirstJsonObject text = none) ∧
    (∀ (openLine body : List Char),
      fenceMarks.isPrefixOf openLine = true → nlChar ∉ openLine →
      extractFirstJsonObject (openLine ++ nlChar :: body ++ nlChar :: fenceMarks) =
        extractCore (pyStripL body)) ∧
    (∀ (pre obj suf : List Char), balancedObject obj → lbrace ∉ pre →
      pre.dropWhile isPyWhitespace = pre →
      suf.reverse.dropWhile isPyWhitespace = suf.reverse →
      fenceMarks.isPrefixOf (pre ++ obj ++ suf) = false →
      extractFirstJsonObject (pre ++ obj ++ suf) = some obj) := by
  refine ⟨?_, ?_, ?_⟩
  · intro text htext
    unfold extractFirstJsonObject
    by_cases h0 : text = []
    · simp [h0]
    · rw [if_neg h0]
      have hnb : lbrace ∉ stripFenceWrapper (pyStripL text) := by
        intro hmem
        rcases mem_stripFenceWrapper _ _ hmem with h | h
        · exact htext (mem_pyStripL _ _ h)
        · exact absurd h (by decide)
      unfold extractCore
      rw [findLbrace_eq_none _ hnb]
  · intro openLine body hfo hnlo
    rcases isPrefixOf_exists_append _ _ hfo with ⟨tl, htl⟩
    have hopen : openLine = btick :: btick :: btick :: tl := by rw [← htl]; rfl
    subst hopen
    have hne : (btick :: btick :: btick :: tl) ++ nlChar :: body ++ nlChar :: fenceMarks ≠
        ([] : List Char) := by simp
    have hhead : (((btick :: btick :: btick :: tl) ++ nlChar :: body ++ nlChar ::
        fenceMarks)).head? = some btick := rfl
    have hlast : (((btick :: btick :: btick :: tl) ++ nlChar :: body ++ nlChar ::
        fenceMarks)).getLast? = some btick := by
      rw [getLast?_append_right]
      decide
    have hrev : (((btick :: btick :: btick :: tl) ++ nlChar :: body ++ nlChar ::
        fenceMarks)).reverse.head? = some btick := by
      rw [List.head?_reverse]
      exact hlast
    have hstrip : pyStripL ((btick :: btick :: btick :: tl) ++ nlChar :: body ++ nlChar ::
        fenceMarks) = (btick :: btick :: btick :: tl) ++ nlChar :: body ++ nlChar ::
        fenceMarks := by
      apply pyStripL_eq_self
      · exact dropWhile_eq_self_of_head _ btick hhead (by decide)
      · exact dropWhile_eq_self_of_head _ btick hrev (by decide)
    have hsplit : splitNlRaw ((btick :: btick :: btick :: tl) ++ nlChar :: body ++ nlChar ::
        fenceMarks) = (btick :: btick :: btick :: tl) :: (splitNlRaw body ++ [fenceMarks]) := by
      rw [splitNlRaw_append, splitNlRaw_append]
      rw [splitNlRaw_eq_single _ hnlo, splitNlRaw_eq_single fenceMarks (by decide)]
      simp
    have hpysplit : pySplitlinesL ((btick :: btick :: btick :: tl) ++ nlChar :: body ++
        nlChar :: fenceMarks) =
        (btick :: btick :: btick :: tl) :: (splitNlRaw body ++ [fenceMarks]) := by
      unfold pySplitlinesL
      rw [if_neg hne, if_neg (by rw [hlast]; decide)]
      exact hsplit
    have hpref : fenceMarks.isPrefixOf ((btick :: btick :: btick :: tl) ++ nlChar :: body ++
        nlChar :: fenceMarks) = true := by
      rw [show (btick :: btick :: btick :: tl) ++ nlChar :: body ++ nlChar :: fenceMarks =
        fenceMarks ++ (tl ++ nlChar :: body ++ nlChar :: fenceMarks) from by
        simp [fenceMarks]]
      exact isPrefixOf_append_self _ _
    have hlen3 : 3 ≤
        ((btick :: btick :: btick :: tl) :: (splitNlRaw body ++ [fenceMarks])).length := by
      have hpos : 0 < (splitNlRaw body).length := List.length_pos.2 (splitNlRaw_ne_nil body)
      simp only [List.length_cons, List.length_append]
      omega
    unfold extractFirstJsonObject
    rw [if_neg hne, hstrip]
    unfold stripFenceWrapper
    rw [hpysplit, if_pos hpref, if_pos hlen3, if_pos (by simpa using hfo)]
    rw [show ((btick :: btick :: btick :: tl) :: (splitNlRaw body ++ [fenceMarks])).drop 1 =
      splitNlRaw body ++ [fenceMarks] from rfl]
    rw [show (splitNlRaw body ++ [fenceMarks]).dropLast = splitNlRaw body from by simp]
    rw [joinNl_splitNlRaw]
  · intro pre obj suf hbal hpre hpstable hsstable hfence
    obtain ⟨hhead, hlast, hscan⟩ := hbal
    obtain ⟨o', rfl⟩ : ∃ o', obj = lbrace :: o' := by
      cases obj with
      | nil => simp at hhead
      | cons a o' =>
        refine ⟨o', ?_⟩
        have ha : a = lbrace := by
          have : (a :: o').head? = some lbrace := hhead
          injection this
        rw [ha]
    have hne : pre ++ (lbrace :: o') ++ suf ≠ ([] : List Char) := by simp
    have h1 : (pre ++ (lbrace :: o') ++ suf).dropWhile isPyWhitespace =
        pre ++ (lbrace :: o') ++ suf := by
      rw [List.append_assoc]
      exact dropWhile_append_stable pre ((lbrace :: o') ++ suf) lbrace hpstable (by simp)
        (by decide)
    have h2 : (pre ++ (lbrace :: o') ++ suf).reverse.dropWhile isPyWhitespace =
        (pre ++ (lbrace :: o') ++ suf).reverse := by
      rw [List.reverse_append]
      refine dropWhile_append_stable suf.reverse (pre ++ lbrace :: o').reverse rbrace
        hsstable ?_ (by decide)
      rw [List.head?_reverse, getLast?_append_right]
      exact hlast
    unfold extractFirstJsonObject
    rw [if_neg hne, pyStripL_eq_self _ h1 h2]
    have hsfw : stripFenceWrapper (pre ++ (lbrace :: o') ++ suf) =
        pre ++ (lbrace :: o') ++ suf := by
      unfold stripFenceWrapper
      rw [if_neg (by rw [hfence]; decide)]
    rw [hsfw]
    unfold extractCore
    have hfind : findLbrace (pre ++ (lbrace :: o') ++ suf) = some pre.length := by
      rw [List.append_assoc, findLbrace_append pre _ hpre]
      rw [show findLbrace ((lbrace :: o') ++ suf) = some 0 from by
        rw [List.cons_append]
        simp [findLbrace]]
      simp
    have hdrop : (pre ++ (lbrace :: o') ++ suf).drop pre.length = (lbrace :: o') ++ suf := by
      rw [List.append_assoc]
      exact List.drop_left _ _
    have hscan2 : scanToClose ((pre ++ (lbrace :: o') ++ suf).drop pre.length) 0 false false =
        some ((lbrace :: o').length - 1) := by
      rw [hdrop]
      exact scanToClose_append suf _ 0 false false _ hscan
    simp only [hfind, hscan2]
    rw [hdrop]
    rw [show (lbrace :: o').length - 1 + 1 = (lbrace :: o').length from by simp]
    rw [List.take_left]

/-- Witness for C7 at concrete inputs: garbage-wrapped object, a fence
wrapper, and a brace-free text. -/
theorem c7_json_extraction_witness :
    extractFirstJsonObject [('h'), ('i')] = none ∧
    extractFirstJsonObject (fenceMarks ++ nlChar :: [lbrace, rbrace] ++ nlChar :: fenceMarks) =
      extractCore (pyStripL [lbrace, rbrace]) ∧
    extractFirstJsonObject ([('x'), (' ')] ++ [lbrace, rbrace] ++ [('z')]) =
      some [lbrace, rbrace] := by
  refine ⟨c7_json_extraction.1 [('h'), ('i')] (by decide), ?_, ?_⟩
  · exact c7_json_extraction.2.1 fenceMarks [lbrace, rbrace] (by decide) (by decide)
  · exact c7_json_extraction.2.2 [('x'), (' ')] [lbrace, rbrace] [('z')]
      ⟨by decide, by decide, by decide⟩ (by decide) (by decide) (by decide) (by decide)

end SkillAgent
